import Mathlib

/-!
# Verification of the VericuTuning YouTube downloader pipeline (`music.py`)

A shallow embedding of the pure/computational core of `src/music.py`:

* `revamped_parse_filename` / `generate_tidy_filename` (filename normalizer),
* `remove_silence` (silence-detection output parsing and the temp-file swap),
* `ensure_ffmpeg` / `setup_ffmpeg_embedded` (external tool locator),
* `DownloadWorker.run` (per-URL loop with per-item failure isolation),
* the progress hooks (`total_bytes or total_bytes_estimate or 1`),
* `lookup_cover_art_itunes` / `lookup_improved_cover_art` (enrichment fallback),
* `update_audio_metadata_ffmpeg` / `update_video_metadata_ffmpeg` (tag writers),
* `process_metadata_file_ffmpeg` (rename-over-original metadata pass).

Strings are modelled as `List Char` (`Str`).  Python text functions
(`str.title`, `str.strip`, `re.sub` with the concrete patterns used by the
source, `os.path.splitext`, `str.split(" - ", 1)`) are translated operation by
operation.  Casing (`str.title`) is modelled on the ASCII letters, which is the
alphabet exercised by every property below; Python's behaviour on the ASCII
subset coincides with this model.  Byte payloads (cover art, file contents)
are opaque and modelled as `Nat` identifiers.  External effects (subprocess
invocations, HTTP responses) enter as explicit oracle parameters, and the file
system is an association list from paths to contents.  Python floats are
modelled as exact rationals `ℚ`.
-/

abbrev Str := List Char

/-- The whitespace characters of Python's `str.strip` / `\s` (ASCII range). -/
def isSpaceChar (c : Char) : Bool :=
  c = ' ' || c = '\t' || c = '\n' || c = '\r' || c = '\x0b' || c = '\x0c'

/-- Path separator characters (`os.sep` and `os.altsep` on Windows, where the
source runs; on POSIX only `'/'` is a separator, which only makes the set
smaller). -/
def isSepChar (c : Char) : Bool :=
  c = '/' || c = '\\'

/-- The characters removed by `generate_tidy_filename`'s regex
`[\\/*?:"<>|]`. -/
def isUnsafeChar (c : Char) : Bool :=
  c = '\\' || c = '/' || c = '*' || c = '?' || c = ':' || c = '"' ||
  c = '<' || c = '>' || c = '|'

/-- The emoji code-point ranges of `remove_emojis`:
`U+1F600-U+1F64F`, `U+1F300-U+1F5FF`, `U+1F680-U+1F6FF`, `U+1F1E0-U+1F1FF`. -/
def isEmojiChar (c : Char) : Bool :=
  (0x1F600 ≤ c.toNat && c.toNat ≤ 0x1F64F) ||
  (0x1F300 ≤ c.toNat && c.toNat ≤ 0x1F5FF) ||
  (0x1F680 ≤ c.toNat && c.toNat ≤ 0x1F6FF) ||
  (0x1F1E0 ≤ c.toNat && c.toNat ≤ 0x1F1FF)

/-- `str.strip()` from the left: drop leading whitespace. -/
def stripL (s : Str) : Str := s.dropWhile isSpaceChar

/-- `str.strip()` from the right. -/
def stripR (s : Str) : Str := (stripL s.reverse).reverse

/-- Python `str.strip()`. -/
def pyStrip (s : Str) : Str := stripR (stripL s)

/-- Map every whitespace character to a plain `' '` (first half of
`re.sub(r'\s+', ' ', s)`). -/
def toSpace (c : Char) : Char := if isSpaceChar c then ' ' else c

/-- Collapse runs of `' '` to a single `' '` (second half of
`re.sub(r'\s+', ' ', s)` after `toSpace`). -/
def squeezeSpaces : Str → Str
  | [] => []
  | [c] => [c]
  | c1 :: c2 :: rest =>
    if c1 = ' ' && c2 = ' ' then squeezeSpaces (c2 :: rest)
    else c1 :: squeezeSpaces (c2 :: rest)

/-- `re.sub(r'\s+', ' ', s)`: each maximal whitespace run becomes one space. -/
def collapseWS (s : Str) : Str := squeezeSpaces (s.map toSpace)

/-- One pass of `re.sub(r'\(pat\)', '', s)` for a left/right delimiter pair:
the regex engine scans left to right; at an opening delimiter it matches
through the first closing delimiter if one exists (the body may not contain
the closing delimiter), otherwise the character is kept.  The `Bool` flag
records "currently inside a match being deleted". -/
def removePairGo (o k : Char) : Bool → Str → Str
  | _, [] => []
  | true, c :: rest => if c = k then removePairGo o k false rest else removePairGo o k true rest
  | false, c :: rest =>
    if c = o && rest.contains k then removePairGo o k true rest
    else c :: removePairGo o k false rest

/-- `re.sub(r'\([^)]*\)', '', s)`. -/
def removeParens (s : Str) : Str := removePairGo '(' ')' false s

/-- `re.sub(r'\[[^\]]*\]', '', s)`. -/
def removeBrackets (s : Str) : Str := removePairGo '[' ']' false s

/-- `remove_emojis` from the source: delete every character in the emoji
ranges (the regex substitutes runs of them with the empty string). -/
def remove_emojis (s : Str) : Str := s.filter (fun c => !isEmojiChar c)

/-- `clean_filename_extras` from the source: drop `(...)` groups, then
`[...]` groups, then collapse whitespace and strip. -/
def clean_filename_extras (s : Str) : Str :=
  pyStrip (collapseWS (removeBrackets (removeParens s)))

/-- `name.replace("_", " ")`. -/
def underscoreToSpace (s : Str) : Str :=
  s.map (fun c => if c = '_' then ' ' else c)

/-- Whether `c` is a cased character for `str.title` (ASCII model). -/
def isCasedChar (c : Char) : Bool := c.isAlpha

/-- The worker of Python `str.title()`: a character after a cased character is
lowercased, any other character is uppercased (titlecased); the flag records
whether the previous character was cased. -/
def pyTitleGo : Bool → Str → Str
  | _, [] => []
  | prevCased, c :: rest =>
    (if prevCased then c.toLower else c.toUpper) :: pyTitleGo (isCasedChar c) rest

/-- Python `str.title()` (ASCII casing model). -/
def pyTitle (s : Str) : Str := pyTitleGo false s

/-- `s.split(" - ", 1)`: locate the first occurrence of the three-character
separator; `none` when absent.  On `some (a, b)` the input is
`a ++ " - " ++ b` and `a` is the part before the first occurrence. -/
def splitOnceSep : Str → Option (Str × Str)
  | [] => none
  | c :: rest =>
    if c = ' ' && rest.take 2 = ['-', ' '] then some ([], rest.drop 2)
    else
      match splitOnceSep rest with
      | some (a, b) => some (c :: a, b)
      | none => none

/-- Split at the last `'.'`: `splitLastDot s = some (pre, post)` with
`s = pre ++ '.' :: post` and no dot in `post`; `none` when `s` is dot-free. -/
def splitLastDot : Str → Option (Str × Str)
  | [] => none
  | c :: rest =>
    match splitLastDot rest with
    | some (pre, post) => some (c :: pre, post)
    | none => if c = '.' then some ([], rest) else none

/-- The part of `p` after its last path separator (`p` itself when `p` has no
separator); the tail `p[filenameIndex:]` of CPython's `_splitext`. -/
def afterLastSep (p : Str) : Str :=
  (p.reverse.takeWhile (fun c => !isSepChar c)).reverse

/-- `os.path.splitext` (CPython `genericpath._splitext`): split at the last
dot, provided that dot comes after the last path separator and that the
basename part before it is not entirely dots (leading dots mark hidden files,
not extensions). -/
def splitext (p : Str) : Str × Str :=
  match splitLastDot p with
  | none => (p, [])
  | some (pre, post) =>
    if post.any isSepChar then (p, [])
    else if (afterLastSep pre).any (fun c => c ≠ '.') then (pre, '.' :: post)
    else (p, [])

/-- The artist/title/extension record produced by `revamped_parse_filename`. -/
structure ParsedName where
  artist : Str
  title : Str
  ext : Str
  deriving DecidableEq, Repr

/-- The cleaned (pre-split) form of a filename's stem, as computed inside
`revamped_parse_filename`:
`clean_filename_extras(remove_emojis(name.replace("_", " ").strip()))`. -/
def cleanedStem (filename : Str) : Str :=
  clean_filename_extras (remove_emojis (pyStrip (underscoreToSpace (splitext filename).1)))

/-- `revamped_parse_filename` from the source. -/
def revamped_parse_filename (filename : Str) : ParsedName :=
  let ext := (splitext filename).2
  let name := cleanedStem filename
  match splitOnceSep name with
  | some (a, t) => ⟨pyTitle (pyStrip a), pyTitle (pyStrip t), ext⟩
  | none => ⟨"Unknown Artist".toList, pyTitle name, ext⟩

/-- `generate_tidy_filename` from the source:
`f"{artist} - {title}{ext}"` with `[\\/*?:"<>|]` characters removed. -/
def generate_tidy_filename (info : ParsedName) : Str :=
  (info.artist ++ (' ' :: '-' :: ' ' :: info.title) ++ info.ext).filter
    (fun c => !isUnsafeChar c)

/-! ## File-system model

The output directory as seen by the pipeline: an association list from paths
to opaque file contents (`Nat` identifiers).  `os.remove`, `os.rename` /
`os.replace` and file writes are the only operations the source performs. -/

abbrev FS := List (Str × ℕ)

def FS.lookup : FS → Str → Option ℕ
  | [], _ => none
  | (p, v) :: rest, q => if p = q then some v else FS.lookup rest q

def FS.erase (fs : FS) (p : Str) : FS :=
  fs.filter (fun e => if e.1 = p then false else true)

def FS.set (fs : FS) (p : Str) (v : ℕ) : FS := (p, v) :: FS.erase fs p

/-- `os.rename` / `os.replace` with an existing source (the only way the
source calls it): the destination is overwritten. -/
def FS.rename (fs : FS) (src dst : Str) : FS :=
  match FS.lookup fs src with
  | some v => FS.set (FS.erase fs src) dst v
  | none => fs

/-! ## `remove_silence`: diagnostic-stream parsing and the temp-file swap -/

/-- Split `s` around the first occurrence of the substring `pat`
(Python `s.split(pat)` adjacency: `some (before, after)`). -/
def splitFirstSub (pat : Str) : Str → Option (Str × Str)
  | [] => none
  | c :: rest =>
    if (c :: rest).take pat.length = pat then some ([], (c :: rest).drop pat.length)
    else
      match splitFirstSub pat rest with
      | some (a, b) => some (c :: a, b)
      | none => none

/-- Value of an all-digit string. -/
def digitsVal (s : Str) : ℕ := s.foldl (fun a c => a * 10 + (c.toNat - 48)) 0

/-- Python `float(value)` on the unsigned decimal forms emitted by ffmpeg's
`silencedetect` filter: `digits`, `digits.`, `.digits`, `digits.digits`. -/
def parseUnsignedFloat? (s : Str) : Option ℚ :=
  let ip := s.takeWhile Char.isDigit
  let rest := s.dropWhile Char.isDigit
  match rest with
  | [] => if ip.isEmpty then none else some (digitsVal ip)
  | '.' :: fp =>
    if fp.all Char.isDigit then
      if ip.isEmpty && fp.isEmpty then none
      else some ((digitsVal ip : ℚ) + (digitsVal fp : ℚ) / (10 : ℚ) ^ fp.length)
    else none
  | _ => none

/-- Python `float(value)` including an optional sign. -/
def parseFloat? : Str → Option ℚ
  | '-' :: r => (parseUnsignedFloat? r).map (fun q => -q)
  | '+' :: r => parseUnsignedFloat? r
  | s => parseUnsignedFloat? s

def silenceMarker : Str := "silence_end:".toList

/-- The per-line body of `remove_silence`'s parsing loop:
`if "silence_end:" in line:` then `parts = line.split("silence_end:")`,
`value = parts[1].split()[0]`, `float(value)`; any failure (`IndexError`,
`ValueError`) is caught and the line is skipped (`none`). -/
def parseSilenceEndLine (line : Str) : Option ℚ :=
  match splitFirstSub silenceMarker line with
  | none => none
  | some (_, suffix) =>
    let part1 :=
      match splitFirstSub silenceMarker suffix with
      | some (a, _) => a
      | none => suffix
    let tok := (part1.dropWhile isSpaceChar).takeWhile (fun c => !isSpaceChar c)
    if tok.isEmpty then none else parseFloat? tok

/-- The loop of `remove_silence`: first line whose marker parses, with `break`. -/
def findSilenceEnd : List Str → Option ℚ
  | [] => none
  | l :: ls =>
    match parseSilenceEndLine l with
    | some t => some t
    | none => findSilenceEnd ls

structure SilenceOutcome where
  /-- file system after the call -/
  fs : FS
  /-- `some path` on normal return; `none` when the trim invocation's
  `CalledProcessError` propagates out of the function -/
  ret : Option Str
  /-- the `-ss` argument passed to the trim command, when one was issued -/
  trimStart : Option ℚ
  deriving DecidableEq, Repr

/-- `remove_silence` from the source.  `stderrLines` is the diagnostic output
of the detection invocation (an input to the program); `trimOk` is whether the
trim invocation exits successfully, and `trimmedContent` the bytes it writes
to the temp file on success. -/
def remove_silence (fs : FS) (input : Str) (stderrLines : List Str)
    (trimOk : Bool) (trimmedContent : ℕ) : SilenceOutcome :=
  match findSilenceEnd stderrLines with
  | none => ⟨fs, some input, none⟩
  | some t =>
    let newStart := max (t - 3/10) 0
    let base := (splitext input).1
    let ext := (splitext input).2
    let temp := base ++ "_nosilence".toList ++ ext
    if trimOk then
      let fs1 := FS.set fs temp trimmedContent
      let fs2 := FS.erase fs1 input
      let fs3 := FS.rename fs2 temp input
      ⟨fs3, some input, some newStart⟩
    else
      ⟨fs, none, some newStart⟩

/-! ## `ensure_ffmpeg` and the batch loop of `DownloadWorker.run` -/

structure ToolEnv where
  /-- whether `ffmpeg -version` succeeds on the search path -/
  ffmpegInPath : Bool
  /-- whether `ffmpeg.exe` exists in the project directory -/
  bundledPresent : Bool
  /-- the fresh directory created by `tempfile.mkdtemp()` -/
  tempDir : Str
  deriving DecidableEq, Repr

/-- `setup_ffmpeg_embedded`: returns the destination path in the temp
directory unconditionally; the second component records whether the bundled
binary existed and was copied (otherwise only `"ffmpeg.exe not found!"` is
logged and the returned path refers to no file). -/
def setup_ffmpeg_embedded (env : ToolEnv) : Str × Bool :=
  (env.tempDir ++ "/ffmpeg.exe".toList, env.bundledPresent)

/-- `ensure_ffmpeg`: returns the resolved path and the updated module-level
cache `FFMPEG_PATH`.  Total: every branch returns a path; in particular the
missing-tool, missing-bundle case still returns the (dangling) temp path. -/
def ensure_ffmpeg (env : ToolEnv) (cached : Option Str) : Str × Option Str :=
  if env.ffmpegInPath then ("ffmpeg".toList, some "ffmpeg".toList)
  else
    match cached with
    | some p => (p, some p)
    | none =>
      let p := (setup_ffmpeg_embedded env).1
      (p, some p)

/-- Observable events of a `DownloadWorker.run` invocation: `log_update`
emissions, invocations of `process_single_url` (each of which begins with a
fetch via `extract_info`), and the terminal `finished_signal`. -/
inductive RunEvent where
  | log (msg : Str)
  | fetchAttempt (url : Str)
  | finished (msg : Str)
  deriving DecidableEq, Repr

/-- `"\n".join(results)`. -/
def joinNewline : List Str → Str
  | [] => []
  | [s] => s
  | s :: rest => s ++ '\n' :: joinNewline rest

/-- The `for url in self.urls` loop of `DownloadWorker.run`.  `outcome i` is
the behaviour of `self.process_single_url` on the `i`-th URL: `.ok names`
(its returned list of produced basenames) or `.error msg` (an exception with
message `msg`, caught by the loop's `except` clause).  Returns the emitted
events and the accumulated `results` list (`results.extend(res)` — extending
with an empty list is the identity, matching `if res:`). -/
def runUrlsGo (outcome : ℕ → Except Str (List Str)) : ℕ → List Str → List RunEvent × List Str
  | _, [] => ([], [])
  | i, u :: us =>
    let head : List RunEvent :=
      [.log ("Processing URL: ".toList ++ u), .fetchAttempt u] ++
      (match outcome i with
       | .ok _ => []
       | .error e => [.log ("Error with ".toList ++ u ++ ": ".toList ++ e)])
    let thisRes : List Str :=
      match outcome i with
      | .ok r => r
      | .error _ => []
    let rest := runUrlsGo outcome (i + 1) us
    (head ++ rest.1, thisRes ++ rest.2)

/-- `DownloadWorker.run`.  The initial `try` emits `"FFmpeg OK."` and calls
`ensure_ffmpeg()`; since `ensure_ffmpeg` is total (it never raises — the
missing-tool case just returns a dangling path), the `except` branch that
would emit `finished "Error"` is unreachable and the run always proceeds. -/
def workerRun (env : ToolEnv) (urls : List Str)
    (outcome : ℕ → Except Str (List Str)) : List RunEvent :=
  let pre : List RunEvent := [.log "FFmpeg OK.".toList]
  let _ := ensure_ffmpeg env none
  if urls.isEmpty then
    pre ++ [.log "No URLs specified.".toList, .finished "No files.".toList]
  else
    let r := runUrlsGo outcome 0 urls
    pre ++ r.1 ++
      [.finished (if r.2.isEmpty then "No files.".toList else joinNewline r.2)]

/-! ## Progress hooks -/

/-- Python `a or b` on an optional integer, where both `None` and `0` are
falsy. -/
def pyOrNat (a : Option ℕ) (b : ℕ) : ℕ :=
  match a with
  | some n => if n = 0 then b else n
  | none => b

/-- The `total` used by both progress hooks:
`d.get("total_bytes") or d.get("total_bytes_estimate") or 1`. -/
def progressTotal (totalBytes totalBytesEstimate : Option ℕ) : ℕ :=
  pyOrNat totalBytes (pyOrNat totalBytesEstimate 1)

/-- Percentage emission of `DownloadWorker._progress_hook` (and of the local
`progress_hook` in `_download_and_process`): on status `"downloading"`, emits
`int(downloaded * 100 / total)`; otherwise nothing.  The float true-division
followed by `int` truncation is exact integer division on these
non-negatives. -/
def progressHookEmit (status : Str) (totalBytes totalBytesEstimate : Option ℕ)
    (downloadedBytes : ℕ) : Option ℕ :=
  if status = "downloading".toList then
    some (downloadedBytes * 100 / progressTotal totalBytes totalBytesEstimate)
  else none

/-! ## Enrichment lookup: iTunes with YouTube fallback -/

structure EnrichmentResult where
  /-- opaque cover-image bytes -/
  cover : ℕ
  /-- `collectionName`, when the provider supplies one -/
  album : Option Str
  deriving DecidableEq, Repr

/-- Worker for Python `str.replace`: scan left to right, replacing each
non-overlapping occurrence of `pat`.  The structural fuel argument makes the
recursion kernel-evaluable; every step consumes at least one character, so
any `fuel ≥ s.length` computes the full replacement. -/
def replaceFuel (pat rep : Str) : ℕ → Str → Str
  | 0, s => s
  | _ + 1, [] => []
  | fuel + 1, c :: rest =>
    if (c :: rest).take pat.length = pat then
      rep ++ replaceFuel pat rep fuel ((c :: rest).drop pat.length)
    else c :: replaceFuel pat rep fuel rest

/-- Python `s.replace(pat, rep)` for the non-empty patterns the source uses
(`"100x100bb"`, `"hqdefault"`). -/
def replaceAllSub (pat rep : Str) (s : Str) : Str := replaceFuel pat rep s.length s

/-- The external world seen by one `lookup_cover_art_itunes` call. -/
structure ITunesWorld where
  /-- HTTP status of the search request -/
  respStatus : ℕ
  /-- the JSON `resultCount` field (`data.get("resultCount", 0)`) -/
  resultCount : ℕ
  /-- `results[0].get("artworkUrl100")`; `none` when absent -/
  artworkUrl100 : Option Str
  /-- `results[0].get("collectionName")` -/
  collectionName : Option Str
  /-- bytes returned by the GET on the high-resolution artwork URL -/
  artFetch : Str → ℕ
  /-- an exception anywhere in the `try` block (network or JSON failure) -/
  netFail : Bool

/-- `lookup_cover_art_itunes` (provider A).  Every early exit and the
`except` clause return `None`; a match substitutes `600x600bb` for
`100x100bb` in the artwork URL, fetches it, and returns cover and album. -/
def lookup_cover_art_itunes (w : ITunesWorld) : Option EnrichmentResult :=
  if w.netFail then none
  else if w.respStatus = 200 then
    if 0 < w.resultCount then
      match w.artworkUrl100 with
      | some u =>
        if u.isEmpty then none
        else
          some ⟨w.artFetch (replaceAllSub "100x100bb".toList "600x600bb".toList u),
                w.collectionName⟩
      | none => none
    else none
  else none

/-- `lookup_improved_cover_art`:
`lookup_cover_art_itunes(artist, title) or lookup_cover_art_youtube(artist, title)`.
Python `or` evaluates the right operand only when the left is falsy (`None`;
the result dicts are non-empty, hence truthy).  The YouTube provider is an
oracle thunk, evaluated only on the fallback path. -/
def lookup_improved_cover_art (w : ITunesWorld)
    (youtubeLookup : Unit → Option EnrichmentResult) : Option EnrichmentResult :=
  match lookup_cover_art_itunes w with
  | some r => some r
  | none => youtubeLookup ()

/-! ## Tag writers -/

structure TagWriteOutcome where
  /-- file system after the call -/
  fs : FS
  /-- `false` when an exception propagated out of the function (a failed
  external invocation, or the malformed command built after a failed cover
  conversion) -/
  ok : Bool
  deriving DecidableEq, Repr

/-- `update_audio_metadata_ffmpeg(input_file, metadata, output_file)`.

`cover` is `metadata.get("cover")` (`none` for absent or empty bytes — both
falsy); `convOk` is whether the Pillow conversion succeeds, `coverTempPath`
the `tempfile.mkstemp` name and `jpegBytes` its content; `runOk` is whether
`subprocess.run(cmd, check=True)` succeeds and `outBytes` the bytes it
writes to `output`.  When the conversion fails the `except` clause only logs and
`cover_temp` remains `None`, but `cmd.extend(["-i", cover_temp, ...])` still
runs, so the subsequent `subprocess.run` raises (`TypeError` on the `None`
argument) with no file written.  The cleanup `os.remove(cover_temp)` is the
last statement and runs only when `subprocess.run` returned normally. -/
def update_audio_metadata_ffmpeg (fs : FS) (cover : Option ℕ) (output : Str)
    (convOk : Bool) (coverTempPath : Str) (jpegBytes : ℕ)
    (runOk : Bool) (outBytes : ℕ) : TagWriteOutcome :=
  match cover with
  | some _ =>
    if convOk then
      let fs1 := FS.set fs coverTempPath jpegBytes
      if runOk then
        let fs2 := FS.set fs1 output outBytes
        ⟨FS.erase fs2 coverTempPath, true⟩
      else ⟨fs1, false⟩
    else ⟨fs, false⟩
  | none =>
    if runOk then ⟨FS.set fs output outBytes, true⟩ else ⟨fs, false⟩

/-- `update_video_metadata_ffmpeg(input_file, info, output_file)`.

`thumbnailUrl` is `info.get("thumbnail", None)` (empty strings are falsy and
modelled as `none`); `fetchedCover` the result of
`get_highres_youtube_thumbnail` (an oracle: network).  Structure mirrors the
audio variant: cover conversion failure leaves `cover_temp = None` yet still
extends the command with it, so the invocation raises; cleanup runs only
after a successful `subprocess.run`. -/
def update_video_metadata_ffmpeg (fs : FS) (thumbnailUrl : Option Str)
    (fetchedCover : Option ℕ) (output : Str)
    (convOk : Bool) (coverTempPath : Str) (jpegBytes : ℕ)
    (runOk : Bool) (outBytes : ℕ) : TagWriteOutcome :=
  let plainCopy : TagWriteOutcome :=
    if runOk then ⟨FS.set fs output outBytes, true⟩ else ⟨fs, false⟩
  match thumbnailUrl with
  | some _ =>
    match fetchedCover with
    | some _ =>
      if convOk then
        let fs1 := FS.set fs coverTempPath jpegBytes
        if runOk then
          let fs2 := FS.set fs1 output outBytes
          ⟨FS.erase fs2 coverTempPath, true⟩
        else ⟨fs1, false⟩
      else ⟨fs, false⟩
    | none => plainCopy
  | none => plainCopy

/-! ## `process_metadata_file_ffmpeg` -/

/-- `os.path.basename`. -/
def pyBasename (p : Str) : Str := afterLastSep p

/-- `os.path.dirname` (`head = p[:i+1]`, then strip trailing separators
unless the head is all separators). -/
def pyDirname (p : Str) : Str :=
  let head := p.take (p.length - (afterLastSep p).length)
  if head.isEmpty then []
  else if head.all isSepChar then head
  else (head.reverse.dropWhile isSepChar).reverse

/-- `os.path.join(a, b)` for the shapes the source produces (`b` a bare
filename, never absolute). -/
def pyJoin (a b : Str) : Str :=
  if a.isEmpty then b
  else if isSepChar (a.getLastD ' ') then a ++ b
  else a ++ '/' :: b

/-- The derived output path of the metadata pass:
`os.path.join(os.path.dirname(filename), generate_tidy_filename(info))` with
`info = revamped_parse_filename(os.path.basename(filename))`. -/
def tidyOutputPath (filename : Str) : Str :=
  pyJoin (pyDirname filename)
    (generate_tidy_filename (revamped_parse_filename (pyBasename filename)))

structure MetaPassOutcome where
  fs : FS
  /-- `some final_output` on success; `none` when the broad `except` clause
  caught a failure and logged `"Metadata update failed"` -/
  ret : Option Str
  deriving DecidableEq, Repr

/-- `process_metadata_file_ffmpeg((filename, thumb_bytes))`.

`lookup` is the value of `lookup_improved_cover_art` (network oracle);
`tempOutPath` the `NamedTemporaryFile(delete=False)` name (freshly created in
the file's directory); the remaining oracles are those of
`update_audio_metadata_ffmpeg`.  On success the original `filename` is
removed, a pre-existing file at the derived output path is removed, and the
temp output is moved over it (`os.replace`). -/
def process_metadata_file_ffmpeg (fs : FS) (filename : Str) (thumb : Option ℕ)
    (lookup : Option EnrichmentResult) (tempOutPath coverTempPath : Str)
    (convOk runOk : Bool) (jpegBytes outBytes : ℕ) : MetaPassOutcome :=
  let info := revamped_parse_filename (pyBasename filename)
  let cover : Option ℕ := lookup.map (fun r => r.cover)
  let finalCover : Option ℕ :=
    match cover with
    | some c => some c
    | none => thumb
  let finalOutput := tidyOutputPath filename
  let fs0 := FS.set fs tempOutPath 0
  let w := update_audio_metadata_ffmpeg fs0 finalCover tempOutPath convOk
    coverTempPath jpegBytes runOk outBytes
  if w.ok then
    let fs1 := FS.erase w.fs filename
    let fs2 := if (FS.lookup fs1 finalOutput).isSome then FS.erase fs1 finalOutput else fs1
    let fs3 := FS.rename fs2 tempOutPath finalOutput
    ⟨fs3, some finalOutput⟩
  else
    ⟨w.fs, none⟩

/-- Whether a `process_single_url` outcome is a failure (its exception was
caught and logged by the batch loop). -/
def exceptIsErr : Except Str Str → Bool
  | .error _ => true
  | .ok _ => false

/-- Whether an emitted event is one of the per-item failure log lines
(`"Error with {url}: {msg}"`). -/
def isFailureLog : RunEvent → Bool
  | .log m => m.take 11 = "Error with ".toList
  | _ => false

/-! ## Analysis predicates for the filename normalizer -/

/-- Whether `d` is a possible case-image of `c` (equal, or both ASCII
letters); `str.title` relates each input character to its output character
this way. -/
def CaseLike (c d : Char) : Prop :=
  d = c ∨ (isCasedChar c = true ∧ isCasedChar d = true)

/-- The head, if any, is not whitespace. -/
def noWsHead : Str → Bool
  | [] => true
  | c :: _ => !isSpaceChar c

/-- Neither end is whitespace (`s.strip() == s`). -/
def strippedStr (s : Str) : Bool := noWsHead s && noWsHead s.reverse

/-- No two adjacent plain spaces. -/
def noDbl : Str → Bool
  | c1 :: c2 :: rest => !(c1 = ' ' && c2 = ' ') && noDbl (c2 :: rest)
  | _ => true

/-- Every opener `o` is followed by no closer `k` — the shape of the output
of `re.sub` removing `o...k` groups. -/
def pairClean (o k : Char) : Str → Bool
  | [] => true
  | c :: rest => (if c = o then !rest.contains k else true) && pairClean o k rest

/-- No occurrence of the `" - "` separator (mirroring `splitOnceSep`). -/
def noSepSub : Str → Bool
  | [] => true
  | c :: rest => !(c = ' ' && rest.take 2 = ['-', ' ']) && noSepSub rest

/-- All dots, if any, form a leading run. -/
def dotsLeading (s : Str) : Bool :=
  (s.dropWhile (fun c => c = '.')).all (fun c => c ≠ '.')

/-- The `"{artist} - {title}"` stem reassembled by `generate_tidy_filename`
before the extension is appended. -/
def assembleRoot (p : ParsedName) : Str :=
  p.artist ++ ' ' :: '-' :: ' ' :: p.title

/-- The textual invariants every parsed artist/title part enjoys: no
underscores, no emoji, no complete parenthesized or bracketed group,
whitespace only as plain spaces, no double spaces, and stripped ends. -/
def GoodPart (s : Str) : Prop :=
  s.all (fun c => c ≠ '_') = true ∧
  s.all (fun c => !isEmojiChar c) = true ∧
  pairClean '(' ')' s = true ∧
  pairClean '[' ']' s = true ∧
  s.all (fun c => !isSpaceChar c || c = ' ') = true ∧
  noDbl s = true ∧
  strippedStr s = true

/-- The TrackIdentity invariant as the specification words it (spec-modelled
definition, for comparison with what the parser actually guarantees): artist
and title nonempty, filesystem-unsafe characters stripped, emoji and complete
bracketed annotations removed, and the sentinel artist whenever the raw name
has no " - " separator. -/
def specTrackIdentityInvariant (fn : Str) : Bool :=
  let p := revamped_parse_filename fn
  !p.artist.isEmpty && !p.title.isEmpty &&
  p.artist.all (fun c => !isUnsafeChar c) && p.title.all (fun c => !isUnsafeChar c) &&
  p.artist.all (fun c => !isEmojiChar c) && p.title.all (fun c => !isEmojiChar c) &&
  pairClean '(' ')' p.artist && pairClean '[' ']' p.artist &&
  pairClean '(' ')' p.title && pairClean '[' ']' p.title &&
  (!noSepSub fn || p.artist == "Unknown Artist".toList)

/-! ## Basic file-system lemmas -/

theorem FS.lookup_erase (fs : FS) (p q : Str) :
    FS.lookup (FS.erase fs p) q = if q = p then none else FS.lookup fs q := by
  induction fs with
  | nil => simp [FS.erase, FS.lookup]
  | cons e rest ih =>
    obtain ⟨ep, ev⟩ := e
    by_cases hep : ep = p
    · have h1 : FS.erase ((ep, ev) :: rest) p = FS.erase rest p := by
        simp [FS.erase, List.filter_cons, hep]
      rw [h1, ih]
      by_cases hq : q = p
      · simp [hq]
      · have hepq : ep ≠ q := fun h => by
          subst h
          exact hq hep
        simp [FS.lookup, hq, hepq]
    · have h1 : FS.erase ((ep, ev) :: rest) p = (ep, ev) :: FS.erase rest p := by
        simp [FS.erase, List.filter_cons, hep]
      rw [h1]
      by_cases heq : ep = q
      · subst heq
        simp [FS.lookup, hep]
      · simp [FS.lookup, heq, ih]

theorem FS.lookup_set (fs : FS) (p : Str) (v : ℕ) (q : Str) :
    FS.lookup (FS.set fs p v) q = if q = p then some v else FS.lookup fs q := by
  by_cases hq : q = p
  · simp [FS.set, FS.lookup, hq]
  · have hpq : p ≠ q := fun h => hq h.symm
    simp [FS.set, FS.lookup, hq, hpq, FS.lookup_erase]

/-! ## C1/C4 support: locating the first parsed marker -/

theorem parseSilenceEndLine_of_no_marker {l : Str}
    (h : splitFirstSub silenceMarker l = none) : parseSilenceEndLine l = none := by
  simp [parseSilenceEndLine, h]

theorem findSilenceEnd_append (pre : List Str) (l : Str) (post : List Str) (t : ℚ)
    (hpre : ∀ l' ∈ pre, splitFirstSub silenceMarker l' = none)
    (hl : parseSilenceEndLine l = some t) :
    findSilenceEnd (pre ++ l :: post) = some t := by
  induction pre with
  | nil => simp [findSilenceEnd, hl]
  | cons x xs ih =>
    have hx := parseSilenceEndLine_of_no_marker (hpre x (by simp))
    simp only [List.cons_append, findSilenceEnd, hx]
    exact ih (fun l' hm => hpre l' (by simp [hm]))

/-- Evaluation of Python `float` on an all-digit token. -/
theorem parseFloat_digits (a : Str) (ha : a.all Char.isDigit = true) (hne : a ≠ []) :
    parseFloat? a = some ((digitsVal a : ℚ)) := by
  have hall : ∀ x ∈ a, x.isDigit = true := fun x hx => List.all_eq_true.1 ha x hx
  cases a with
  | nil => exact absurd rfl hne
  | cons c r =>
    have hc : c.isDigit = true := hall c (by simp)
    have hcm : c ≠ '-' := by intro h; subst h; simp [Char.isDigit] at hc
    have hcp : c ≠ '+' := by intro h; subst h; simp [Char.isDigit] at hc
    have key : parseFloat? (c :: r) = parseUnsignedFloat? (c :: r) := by
      rw [parseFloat?.eq_def]
      split
      next r2 heq =>
        injection heq with h1 _
        exact absurd h1 hcm
      next r2 heq =>
        injection heq with h1 _
        exact absurd h1 hcp
      next => rfl
    have htake : List.takeWhile Char.isDigit (c :: r) = c :: r :=
      List.takeWhile_eq_self_iff.2 hall
    have hdrop : List.dropWhile Char.isDigit (c :: r) = [] :=
      List.dropWhile_eq_nil_iff.2 hall
    rw [key]
    simp [parseUnsignedFloat?, htake, hdrop]

/-- C1 — For every invocation of `remove_silence` whose silence-detection
diagnostic output contains a `silence_end: t` marker, the function uses the
first such marker (the preceding lines contain no marker) and issues the trim
invocation starting at exactly `max(t - 0.3, 0)` seconds, thereby preserving
0.3 seconds of audio before the detected silence boundary. -/
theorem remove_silence_uses_first_marker (fs : FS) (input : Str)
    (pre : List Str) (l : Str) (post : List Str) (t : ℚ)
    (trimOk : Bool) (content : ℕ)
    (hpre : ∀ l' ∈ pre, splitFirstSub silenceMarker l' = none)
    (hl : parseSilenceEndLine l = some t) :
    (remove_silence fs input (pre ++ l :: post) trimOk content).trimStart =
      some (max (t - 3/10) 0) := by
  have h := findSilenceEnd_append pre l post t hpre hl
  cases trimOk <;> simp [remove_silence, h]

/-- C1 witness: a concrete ffmpeg `silencedetect` diagnostic stream whose
first (and only) marker reads `silence_end: 3`; the issued trim start is
`3 - 0.3 = 2.7 = 27/10`. -/
theorem remove_silence_uses_first_marker_witness :
    (remove_silence [] "song.mp3".toList
      ["[silencedetect @ 0x55] silence_start: 0".toList,
       "[silencedetect @ 0x55] silence_end: 3 | silence_duration: 2".toList]
      true 7).trimStart = some (27/10 : ℚ) := by
  have hd : digitsVal ['3'] = 3 := by decide
  have hl : parseSilenceEndLine
      "[silencedetect @ 0x55] silence_end: 3 | silence_duration: 2".toList = some ((3 : ℚ)) := by
    have h0 : parseSilenceEndLine
        "[silencedetect @ 0x55] silence_end: 3 | silence_duration: 2".toList
        = parseFloat? ['3'] := rfl
    rw [h0, parseFloat_digits ['3'] (by decide) (by decide), hd]
    norm_num
  have h := remove_silence_uses_first_marker [] "song.mp3".toList
    ["[silencedetect @ 0x55] silence_start: 0".toList]
    "[silencedetect @ 0x55] silence_end: 3 | silence_duration: 2".toList
    [] 3 true 7 (by decide) hl
  simp only [List.singleton_append] at h
  rw [h]
  congr 1
  rw [max_eq_left (by norm_num)]
  norm_num

/-- C4 — `remove_silence` leaves the original file intact whenever trimming
does not complete: with no parsed `silence_end` marker it returns the input
path with the file system untouched (a no-op normal return, not an error);
and when the trim invocation fails, either no marker was found (the same
no-op) or the `CalledProcessError` propagates with the file system unchanged
from before the call — in particular the original file is never removed or
replaced, since the remove/rename swap runs only after a successful trim. -/
theorem remove_silence_preserves_original (fs : FS) (input : Str)
    (lines : List Str) (trimOk : Bool) (content : ℕ) :
    (findSilenceEnd lines = none →
      remove_silence fs input lines trimOk content = ⟨fs, some input, none⟩) ∧
    (trimOk = false →
      (remove_silence fs input lines trimOk content).fs = fs ∧
        (remove_silence fs input lines trimOk content).ret = none ∨
      findSilenceEnd lines = none ∧
        remove_silence fs input lines trimOk content = ⟨fs, some input, none⟩) := by
  constructor
  · intro h
    simp [remove_silence, h]
  · intro h
    subst h
    rcases hfind : findSilenceEnd lines with _ | t
    · right
      exact ⟨rfl, by simp [remove_silence, hfind]⟩
    · left
      simp [remove_silence, hfind]

/-- C4 witness: with no marker the call is a no-op returning the input path;
with a failing trim the file system (hence the original file) is untouched
and the error propagates. -/
theorem remove_silence_preserves_original_witness :
    remove_silence [("a.mp3".toList, 5)] "a.mp3".toList ["no marker here".toList] true 7 =
      ⟨[("a.mp3".toList, 5)], some "a.mp3".toList, none⟩ ∧
    (remove_silence [("a.mp3".toList, 5)] "a.mp3".toList ["silence_end: 2".toList] false 7).fs =
      [("a.mp3".toList, 5)] := by
  constructor
  · exact (remove_silence_preserves_original [("a.mp3".toList, 5)] "a.mp3".toList
      ["no marker here".toList] true 7).1 (by decide)
  · rcases (remove_silence_preserves_original [("a.mp3".toList, 5)] "a.mp3".toList
      ["silence_end: 2".toList] false 7).2 rfl with h | h
    · exact h.1
    · exact absurd h.1 (by decide)

/-! ## C2: the missing-tool run proceeds to fetch -/

theorem runUrlsGo_fetch_mem (outcome : ℕ → Except Str (List Str)) (i : ℕ)
    (u : Str) (us : List Str) :
    RunEvent.fetchAttempt u ∈ (runUrlsGo outcome i (u :: us)).1 := by
  cases h : outcome i <;> simp [runUrlsGo, h]

/-- C2 counterexample — with the tool absent from the search path and no
bundled binary, `ensure_ffmpeg` does not raise: it returns a dangling path in
the fresh temp directory (no copy happened), and the batch run proceeds — a
fetch is attempted, the item is produced, and no `"Error"` terminal signal is
emitted.  This refutes the claim that the run fails immediately with a
ToolUnavailable-style fatal error before any fetch attempt. -/
theorem workerRun_missing_tool_counterexample :
    (setup_ffmpeg_embedded ⟨false, false, "/tmp/vt".toList⟩).2 = false ∧
    (ensure_ffmpeg ⟨false, false, "/tmp/vt".toList⟩ none).1 = "/tmp/vt/ffmpeg.exe".toList ∧
    RunEvent.fetchAttempt "u1".toList ∈
      workerRun ⟨false, false, "/tmp/vt".toList⟩ ["u1".toList]
        (fun _ => .ok ["f.mp3".toList]) ∧
    RunEvent.finished "f.mp3".toList ∈
      workerRun ⟨false, false, "/tmp/vt".toList⟩ ["u1".toList]
        (fun _ => .ok ["f.mp3".toList]) ∧
    RunEvent.finished "Error".toList ∉
      workerRun ⟨false, false, "/tmp/vt".toList⟩ ["u1".toList]
        (fun _ => .ok ["f.mp3".toList]) := by
  decide

/-- C2 amended — when the tool is unavailable and no bundled binary exists,
`ensure_ffmpeg` logs an error but still returns (a dangling path into the
temp directory, no copy performed), and the batch run does not abort: it
proceeds to a fetch attempt on the first URL. -/
theorem workerRun_missing_tool_proceeds (env : ToolEnv) (u : Str) (us : List Str)
    (outcome : ℕ → Except Str (List Str))
    (h1 : env.ffmpegInPath = false) (h2 : env.bundledPresent = false) :
    (setup_ffmpeg_embedded env).2 = false ∧
    (ensure_ffmpeg env none).1 = env.tempDir ++ "/ffmpeg.exe".toList ∧
    RunEvent.fetchAttempt u ∈ workerRun env (u :: us) outcome := by
  refine ⟨by simp [setup_ffmpeg_embedded, h2],
    by simp [ensure_ffmpeg, h1, setup_ffmpeg_embedded], ?_⟩
  have hmem := runUrlsGo_fetch_mem outcome 0 u us
  simp [workerRun, hmem]

/-- C2 amended witness. -/
theorem workerRun_missing_tool_proceeds_witness :
    (setup_ffmpeg_embedded ⟨false, false, "/t".toList⟩).2 = false ∧
    (ensure_ffmpeg ⟨false, false, "/t".toList⟩ none).1 =
      "/t".toList ++ "/ffmpeg.exe".toList ∧
    RunEvent.fetchAttempt "u".toList ∈
      workerRun ⟨false, false, "/t".toList⟩ ["u".toList] (fun _ => .ok []) :=
  workerRun_missing_tool_proceeds ⟨false, false, "/t".toList⟩ "u".toList [] _ rfl rfl

/-! ## C3: partial-failure isolation in the batch loop -/

theorem countP_range_succ_shift (p : ℕ → Bool) (n : ℕ) :
    (List.range (n+1)).countP p =
      (if p 0 then 1 else 0) + (List.range n).countP (fun j => p (j+1)) := by
  rw [List.range_succ_eq_map]
  rw [List.countP_cons, List.countP_map]
  have h : (p ∘ Nat.succ) = fun j => p (j + 1) := rfl
  rw [h]
  omega

theorem runUrlsGo_cons (outcome : ℕ → Except Str (List Str)) (k : ℕ) (u : Str)
    (us : List Str) :
    runUrlsGo outcome k (u :: us) =
      (([.log ("Processing URL: ".toList ++ u), .fetchAttempt u] ++
          (match outcome k with
           | .ok _ => []
           | .error e => [.log ("Error with ".toList ++ u ++ ": ".toList ++ e)])) ++
        (runUrlsGo outcome (k+1) us).1,
       (match outcome k with
        | .ok r => r
        | .error _ => []) ++ (runUrlsGo outcome (k+1) us).2) := rfl

theorem mapSingleton_error (e : Str) :
    (Except.error e : Except Str Str).map (fun b => [b]) = Except.error e := rfl

theorem mapSingleton_ok (b : Str) :
    (Except.ok b : Except Str Str).map (fun b => [b]) = Except.ok [b] := rfl

theorem runUrlsGo_len (single : ℕ → Except Str Str) (urls : List Str) :
    ∀ k, (runUrlsGo (fun i => (single i).map (fun b => [b])) k urls).2.length +
      (List.range urls.length).countP (fun j => exceptIsErr (single (k + j))) =
      urls.length := by
  induction urls with
  | nil => intro k; simp [runUrlsGo]
  | cons u us ih =>
    intro k
    have hshift : (fun j => exceptIsErr (single (k + (j + 1)))) =
        (fun j => exceptIsErr (single ((k + 1) + j))) := by
      funext j
      have h : k + (j + 1) = (k + 1) + j := by omega
      rw [h]
    have hcount := countP_range_succ_shift (fun j => exceptIsErr (single (k + j))) us.length
    simp only [Nat.add_zero] at hcount
    have hrec := ih (k + 1)
    rcases h : single k with e | b
    · have he : exceptIsErr (single k) = true := by rw [h]; rfl
      simp only [runUrlsGo_cons, h, mapSingleton_error, List.nil_append,
        List.length_cons]
      rw [hcount, hshift]
      simp [he]
      omega
    · have he : exceptIsErr (single k) = false := by rw [h]; rfl
      simp only [runUrlsGo_cons, h, mapSingleton_ok, List.singleton_append,
        List.length_cons]
      rw [hcount, hshift]
      simp [he]
      omega

theorem runUrlsGo_failure_logs (single : ℕ → Except Str Str) (urls : List Str) :
    ∀ k, ((runUrlsGo (fun i => (single i).map (fun b => [b])) k urls).1.countP isFailureLog) =
      (List.range urls.length).countP (fun j => exceptIsErr (single (k + j))) := by
  have hproc : ∀ u : Str, isFailureLog (.log ("Processing URL: ".toList ++ u)) = false := by
    intro u
    have h16 : ("Processing URL: ".toList ++ u).take 11 = "Processing ".toList := by
      rw [List.take_append_eq_append_take]
      simp
    simp [isFailureLog, h16]
  have herr : ∀ u e : Str,
      isFailureLog (.log ("Error with ".toList ++ u ++ ": ".toList ++ e)) = true := by
    intro u e
    have h11 : ("Error with ".toList ++ u ++ ": ".toList ++ e).take 11 =
        "Error with ".toList := by
      have hl : ("Error with ".toList).length = 11 := rfl
      rw [List.append_assoc, List.append_assoc, ← hl, List.take_left]
    simp [isFailureLog, h11]
  induction urls with
  | nil => intro k; simp [runUrlsGo]
  | cons u us ih =>
    intro k
    have hshift : (fun j => exceptIsErr (single (k + (j + 1)))) =
        (fun j => exceptIsErr (single ((k + 1) + j))) := by
      funext j
      have h : k + (j + 1) = (k + 1) + j := by omega
      rw [h]
    have hcount := countP_range_succ_shift (fun j => exceptIsErr (single (k + j))) us.length
    simp only [Nat.add_zero] at hcount
    have hrec := ih (k + 1)
    rcases h : single k with e | b
    · have he : exceptIsErr (single k) = true := by rw [h]; rfl
      have hfetch : isFailureLog (.fetchAttempt u) = false := rfl
      simp only [List.length_cons]
      rw [hcount, hshift, ← hrec]
      simp only [runUrlsGo_cons, h, mapSingleton_error, List.countP_append,
        List.countP_cons, List.countP_nil, hproc, herr]
      simp [he, hfetch, exceptIsErr]
    · have he : exceptIsErr (single k) = false := by rw [h]; rfl
      have hfetch : isFailureLog (.fetchAttempt u) = false := rfl
      simp only [List.length_cons]
      rw [hcount, hshift, ← hrec]
      simp only [runUrlsGo_cons, h, mapSingleton_ok, List.countP_append,
        List.countP_cons, List.countP_nil, hproc, herr]
      simp [he, hfetch, exceptIsErr]

theorem runUrlsGo_no_finished (outcome : ℕ → Except Str (List Str)) (urls : List Str) :
    ∀ k m, RunEvent.finished m ∉ (runUrlsGo outcome k urls).1 := by
  induction urls with
  | nil => intro k m; simp [runUrlsGo]
  | cons u us ih =>
    intro k m
    rcases h : outcome k with e | r <;>
      simp [runUrlsGo_cons, h, ih (k + 1) m]

theorem runUrlsGo_results_mem (single : ℕ → Except Str Str) (urls : List Str) :
    ∀ k b, b ∈ (runUrlsGo (fun i => (single i).map (fun b => [b])) k urls).2 →
      ∃ i, single i = .ok b := by
  induction urls with
  | nil => intro k b hb; simp [runUrlsGo] at hb
  | cons u us ih =>
    intro k b hb
    rcases h : single k with e | v
    · rw [runUrlsGo_cons] at hb
      simp only [h, mapSingleton_error] at hb
      exact ih (k + 1) b (by simpa using hb)
    · rw [runUrlsGo_cons] at hb
      simp only [h, mapSingleton_ok] at hb
      rcases List.mem_append.1 hb with h1 | h1
      · refine ⟨k, ?_⟩
        rw [h]
        simp at h1
        rw [h1]
      · exact ih (k + 1) b h1

theorem joinNewline_ne_noFiles (results : List Str) (hne : results ≠ [])
    (hb : ∀ b ∈ results, b ≠ "No files.".toList) :
    joinNewline results ≠ "No files.".toList := by
  match results with
  | [] => exact absurd rfl hne
  | [b] => simpa [joinNewline] using hb b (by simp)
  | b :: c :: rest =>
    intro h
    have hj : joinNewline (b :: c :: rest) = b ++ '\n' :: joinNewline (c :: rest) := rfl
    have hmem : '\n' ∈ joinNewline (b :: c :: rest) := by
      rw [hj]
      exact List.mem_append.2 (Or.inr (by simp))
    rw [h] at hmem
    exact absurd hmem (by decide)

theorem workerRun_cons (env : ToolEnv) (outcome : ℕ → Except Str (List Str))
    (u : Str) (us : List Str) :
    workerRun env (u :: us) outcome =
      [RunEvent.log "FFmpeg OK.".toList] ++ (runUrlsGo outcome 0 (u :: us)).1 ++
        [RunEvent.finished (if (runUrlsGo outcome 0 (u :: us)).2.isEmpty
          then "No files.".toList
          else joinNewline (runUrlsGo outcome 0 (u :: us)).2)] := rfl

theorem workerRun_nil (env : ToolEnv) (outcome : ℕ → Except Str (List Str)) :
    workerRun env [] outcome =
      [RunEvent.log "FFmpeg OK.".toList, RunEvent.log "No URLs specified.".toList,
       RunEvent.finished "No files.".toList] := rfl

/-- C3 — For a batch of `N` identifiers of which exactly `K` fail (each
identifier resolving to a single item, `single i` its fetch outcome), every
failure is caught, logged and excluded from the result set: the result set
has `N - K` entries (stated additively), exactly `K` failure log lines
(`"Error with ..."`) are emitted, and the terminal signal is the
total-failure sentinel `"No files."` precisely when the identifier list is
empty or every item failed. -/
theorem workerRun_failure_isolation (env : ToolEnv) (urls : List Str)
    (single : ℕ → Except Str Str)
    (hb : ∀ i b, single i = Except.ok b → b ≠ "No files.".toList) :
    (runUrlsGo (fun i => (single i).map (fun b => [b])) 0 urls).2.length +
      (List.range urls.length).countP (fun i => exceptIsErr (single i)) = urls.length ∧
    (workerRun env urls (fun i => (single i).map (fun b => [b]))).countP isFailureLog =
      (List.range urls.length).countP (fun i => exceptIsErr (single i)) ∧
    (RunEvent.finished "No files.".toList ∈
        workerRun env urls (fun i => (single i).map (fun b => [b])) ↔
      urls = [] ∨
        (List.range urls.length).countP (fun i => exceptIsErr (single i)) =
          urls.length) := by
  have hzero : (fun i => exceptIsErr (single i)) =
      fun j => exceptIsErr (single (0 + j)) := by
    funext j
    rw [Nat.zero_add]
  rw [hzero]
  have hlen := runUrlsGo_len single urls 0
  have hlogs := runUrlsGo_failure_logs single urls 0
  have hfin : ∀ m, isFailureLog (RunEvent.finished m) = false := fun _ => rfl
  have hok : isFailureLog (RunEvent.log "FFmpeg OK.".toList) = false := by decide
  refine ⟨hlen, ?_, ?_⟩
  · cases urls with
    | nil =>
      rw [workerRun_nil]
      simp [runUrlsGo]
      all_goals decide
    | cons u us =>
      rw [workerRun_cons]
      rw [List.countP_append, List.countP_append]
      simp [hok, hfin, hlogs]
      all_goals decide
  · cases urls with
    | nil =>
      rw [workerRun_nil]
      simp
    | cons u us =>
      rw [workerRun_cons]
      have hnofin := runUrlsGo_no_finished
        (fun i => (single i).map (fun b => [b])) (u :: us) 0 "No files.".toList
      constructor
      · intro hmem
        rcases List.mem_append.1 hmem with hm | hm
        · rcases List.mem_append.1 hm with hm2 | hm2
          · simp at hm2
          · exact absurd hm2 hnofin
        · by_cases hres :
            ((runUrlsGo (fun i => (single i).map (fun b => [b])) 0 (u :: us)).2).isEmpty
          · right
            have h0 :
                (runUrlsGo (fun i => (single i).map (fun b => [b])) 0 (u :: us)).2.length
                  = 0 := by
              rw [List.isEmpty_iff] at hres
              simp [hres]
            omega
          · exfalso
            have hne2 :
                (runUrlsGo (fun i => (single i).map (fun b => [b])) 0 (u :: us)).2 ≠ [] := by
              simpa [List.isEmpty_iff] using hres
            have hball : ∀ b ∈
                (runUrlsGo (fun i => (single i).map (fun b => [b])) 0 (u :: us)).2,
                b ≠ "No files.".toList := by
              intro b hbm
              obtain ⟨i, hi⟩ := runUrlsGo_results_mem single (u :: us) 0 b hbm
              exact hb i b hi
            have hjoin := joinNewline_ne_noFiles _ hne2 hball
            rw [if_neg (by simpa using hres)] at hm
            simp at hm
            exact hjoin hm.symm
      · intro hdisj
        rcases hdisj with hnil | hK
        · exact absurd hnil (by simp)
        · have h0 :
              (runUrlsGo (fun i => (single i).map (fun b => [b])) 0 (u :: us)).2.length
                = 0 := by omega
          have hres :
              ((runUrlsGo (fun i => (single i).map (fun b => [b])) 0 (u :: us)).2).isEmpty
                = true := by
            rw [List.isEmpty_iff, ← List.length_eq_zero]
            exact h0
          refine List.mem_append.2 (Or.inr ?_)
          simp [hres]

/-- C3 witness: three identifiers, the middle one failing — 2 results,
1 failure log line, and no total-failure signal. -/
theorem workerRun_failure_isolation_witness :
    (runUrlsGo (fun i =>
        ((fun j => if j = 1 then Except.error "boom".toList
          else Except.ok "x.mp3".toList) i).map (fun b => [b])) 0
      ["a".toList, "b".toList, "c".toList]).2.length +
      (List.range 3).countP (fun i => exceptIsErr
        (if i = 1 then Except.error "boom".toList else Except.ok "x.mp3".toList)) = 3 ∧
    (workerRun ⟨true, true, [] ⟩ ["a".toList, "b".toList, "c".toList] (fun i =>
        ((fun j => if j = 1 then Except.error "boom".toList
          else Except.ok "x.mp3".toList) i).map (fun b => [b]))).countP isFailureLog =
      (List.range 3).countP (fun i => exceptIsErr
        (if i = 1 then Except.error "boom".toList else Except.ok "x.mp3".toList)) ∧
    (RunEvent.finished "No files.".toList ∈
        workerRun ⟨true, true, [] ⟩ ["a".toList, "b".toList, "c".toList] (fun i =>
          ((fun j => if j = 1 then Except.error "boom".toList
            else Except.ok "x.mp3".toList) i).map (fun b => [b])) ↔
      (["a".toList, "b".toList, "c".toList] : List Str) = [] ∨
        (List.range 3).countP (fun i => exceptIsErr
          (if i = 1 then Except.error "boom".toList else Except.ok "x.mp3".toList)) = 3) := by
  have h := workerRun_failure_isolation ⟨true, true, []⟩
    ["a".toList, "b".toList, "c".toList]
    (fun j => if j = 1 then Except.error "boom".toList else Except.ok "x.mp3".toList)
    (by
      intro i b hib
      by_cases hi : i = 1
      · simp [hi] at hib
      · simp [hi] at hib
        rw [← hib]
        decide)
  simpa using h

/-! ## C7: progress with unknown totals -/

/-- C7 counterexample — when neither the exact total nor an estimate is
available, the hook does not skip percentage reporting: it substitutes `1`
as the total and emits `downloaded * 100` (here 50000 "percent" for 500
bytes). -/
theorem progress_hook_fabricated_total_counterexample :
    progressTotal none none = 1 ∧
    progressHookEmit "downloading".toList none none 500 = some 50000 ∧
    progressHookEmit "downloading".toList none none 500 ≠ none := by
  decide

/-- C7 amended — the hook never divides by zero (the chained `or` makes the
total at least 1), but when no total is known even as an estimate it does
not skip reporting: it fabricates total `1` and emits `downloaded * 100`. -/
theorem progress_hook_unknown_total (tb tbe : Option ℕ) (db : ℕ) :
    0 < progressTotal tb tbe ∧
    progressHookEmit "downloading".toList none none db = some (db * 100) := by
  constructor
  · unfold progressTotal pyOrNat
    rcases tb with _ | n
    · rcases tbe with _ | m
      · simp
      · by_cases hm : m = 0 <;> simp [hm] <;> omega
    · by_cases hn : n = 0
      · simp [hn]
        rcases tbe with _ | m
        · simp
        · by_cases hm : m = 0 <;> simp [hm] <;> omega
      · simp [hn]
        omega
  · simp [progressHookEmit, progressTotal, pyOrNat]

/-! ## C8: provider ordering of the enrichment lookup -/

/-- C8 — the enrichment lookup returns provider A's (iTunes) result whenever
provider A yields a match, regardless of what provider B (YouTube) would
return, and provider B is consulted only when provider A yields no result
(the `or` short-circuits, so the fallback thunk is evaluated exactly in the
no-match case). -/
theorem lookup_improved_prefers_itunes (w : ITunesWorld)
    (yt : Unit → Option EnrichmentResult) :
    (∀ r, lookup_cover_art_itunes w = some r →
      ∀ yt2 : Unit → Option EnrichmentResult,
        lookup_improved_cover_art w yt2 = some r) ∧
    (lookup_cover_art_itunes w = none →
      lookup_improved_cover_art w yt = yt ()) := by
  constructor
  · intro r hr yt2
    simp [lookup_improved_cover_art, hr]
  · intro h
    simp [lookup_improved_cover_art, h]

/-- C8 witness: a provider-A world that matches (status 200, one result, an
artwork URL) against a provider B that would return a different cover; the
lookup returns A's cover and album, ignoring B. -/
theorem lookup_improved_prefers_itunes_witness :
    lookup_cover_art_itunes
      ⟨200, 1, some "art100x100bb.jpg".toList, some "Alb".toList, fun _ => 42, false⟩ =
      some ⟨42, some "Alb".toList⟩ ∧
    lookup_improved_cover_art
      ⟨200, 1, some "art100x100bb.jpg".toList, some "Alb".toList, fun _ => 42, false⟩
      (fun _ => some ⟨99, none⟩) = some ⟨42, some "Alb".toList⟩ := by
  have hA : lookup_cover_art_itunes
      ⟨200, 1, some "art100x100bb.jpg".toList, some "Alb".toList, fun _ => 42, false⟩ =
      some ⟨42, some "Alb".toList⟩ := by decide
  exact ⟨hA, (lookup_improved_prefers_itunes _ (fun _ => some ⟨99, none⟩)).1 _ hA _⟩

/-! ## C9: cover-temp cleanup in the tag writers -/

/-- C9 counterexample — when the external tag-write invocation fails, the
exception propagates before the cleanup line: the intermediate cover-image
temp file written by the conversion step is left behind (in both the audio
and the video variant), refuting "removed regardless of outcome". -/
theorem update_metadata_cover_temp_leak_counterexample :
    (update_audio_metadata_ffmpeg [] (some 5) "out.mp3".toList true
      "cov.jpg".toList 9 false 0).ok = false ∧
    FS.lookup (update_audio_metadata_ffmpeg [] (some 5) "out.mp3".toList true
      "cov.jpg".toList 9 false 0).fs "cov.jpg".toList = some 9 ∧
    (update_video_metadata_ffmpeg [] (some "http://t".toList) (some 5)
      "out.mp4".toList true "cov.jpg".toList 9 false 0).ok = false ∧
    FS.lookup (update_video_metadata_ffmpeg [] (some "http://t".toList) (some 5)
      "out.mp4".toList true "cov.jpg".toList 9 false 0).fs "cov.jpg".toList = some 9 := by
  decide

/-- C9 amended — both tag writers remove the cover-image temp file when the
external invocation returns successfully; when it fails, the exception
propagates before the cleanup line and the temp file is left behind. -/
theorem update_metadata_cover_temp_cleanup (fs : FS) (c fc : ℕ) (u : Str)
    (output coverTemp : Str) (jpeg outBytes : ℕ) :
    FS.lookup (update_audio_metadata_ffmpeg fs (some c) output true coverTemp
      jpeg true outBytes).fs coverTemp = none ∧
    FS.lookup (update_audio_metadata_ffmpeg fs (some c) output true coverTemp
      jpeg false outBytes).fs coverTemp = some jpeg ∧
    (update_audio_metadata_ffmpeg fs (some c) output true coverTemp
      jpeg false outBytes).ok = false ∧
    FS.lookup (update_video_metadata_ffmpeg fs (some u) (some fc) output true
      coverTemp jpeg true outBytes).fs coverTemp = none ∧
    FS.lookup (update_video_metadata_ffmpeg fs (some u) (some fc) output true
      coverTemp jpeg false outBytes).fs coverTemp = some jpeg := by
  refine ⟨?_, ?_, rfl, ?_, ?_⟩ <;>
    simp [update_audio_metadata_ffmpeg, update_video_metadata_ffmpeg,
      FS.lookup_erase, FS.lookup_set]

/-! ## C10: metadata pass replaces the original and the derived output -/

theorem update_audio_success_ok (fs : FS) (cover : Option ℕ) (output covTemp : Str)
    (jpeg outBytes : ℕ) :
    (update_audio_metadata_ffmpeg fs cover output true covTemp jpeg true outBytes).ok
      = true := by
  cases cover <;> rfl

theorem update_audio_success_lookup (fs : FS) (cover : Option ℕ)
    (output covTemp : Str) (jpeg outBytes : ℕ) (q : Str) (hq : q ≠ covTemp) :
    FS.lookup (update_audio_metadata_ffmpeg fs cover output true covTemp jpeg
      true outBytes).fs q = if q = output then some outBytes else FS.lookup fs q := by
  cases cover <;>
    simp [update_audio_metadata_ffmpeg, FS.lookup_erase, FS.lookup_set, hq]

theorem process_metadata_success_spec (fs : FS) (f : Str) (thumb : Option ℕ)
    (lookup : Option EnrichmentResult) (tempOut covTemp : Str) (jpeg outBytes : ℕ)
    (h1 : tempOut ≠ f) (h2 : tempOut ≠ tidyOutputPath f) (h3 : covTemp ≠ tempOut) :
    (process_metadata_file_ffmpeg fs f thumb lookup tempOut covTemp true true
        jpeg outBytes).ret = some (tidyOutputPath f) ∧
    FS.lookup (process_metadata_file_ffmpeg fs f thumb lookup tempOut covTemp
        true true jpeg outBytes).fs (tidyOutputPath f) = some outBytes ∧
    (f ≠ tidyOutputPath f →
      FS.lookup (process_metadata_file_ffmpeg fs f thumb lookup tempOut covTemp
          true true jpeg outBytes).fs f = none) ∧
    (∀ q, q ≠ f → q ≠ tidyOutputPath f → q ≠ tempOut → q ≠ covTemp →
      FS.lookup (process_metadata_file_ffmpeg fs f thumb lookup tempOut covTemp
          true true jpeg outBytes).fs q = FS.lookup fs q) := by
  set w := update_audio_metadata_ffmpeg (FS.set fs tempOut 0)
    (match lookup.map (fun r => r.cover) with
     | some c => some c
     | none => thumb) tempOut true covTemp jpeg true outBytes with hw
  have hwok : w.ok = true := by
    rw [hw]
    exact update_audio_success_ok _ _ _ _ _ _
  set fs1 := FS.erase w.fs f with hfs1
  set fs2 := (if (FS.lookup fs1 (tidyOutputPath f)).isSome
    then FS.erase fs1 (tidyOutputPath f) else fs1) with hfs2
  have hfs : (process_metadata_file_ffmpeg fs f thumb lookup tempOut covTemp
      true true jpeg outBytes).fs = FS.rename fs2 tempOut (tidyOutputPath f) := by
    simp only [process_metadata_file_ffmpeg]
    rw [← hw]
    simp only [hwok, if_true]
  have hret : (process_metadata_file_ffmpeg fs f thumb lookup tempOut covTemp
      true true jpeg outBytes).ret = some (tidyOutputPath f) := by
    simp only [process_metadata_file_ffmpeg]
    rw [← hw]
    simp only [hwok, if_true]
  have hwlook : ∀ q, q ≠ covTemp →
      FS.lookup w.fs q = if q = tempOut then some outBytes
        else FS.lookup (FS.set fs tempOut 0) q := by
    intro q hq
    rw [hw]
    exact update_audio_success_lookup _ _ _ _ _ _ q hq
  have hTmp : FS.lookup fs2 tempOut = some outBytes := by
    have ha : FS.lookup fs1 tempOut = some outBytes := by
      rw [hfs1, FS.lookup_erase, if_neg h1, hwlook tempOut (Ne.symm h3), if_pos rfl]
    rw [hfs2]
    by_cases hpre : (FS.lookup fs1 (tidyOutputPath f)).isSome
    · simp only [hpre, if_true]
      rw [FS.lookup_erase, if_neg h2, ha]
    · simp only [hpre]
      simp only [Bool.false_eq_true, if_false, ha]
  have hren : FS.rename fs2 tempOut (tidyOutputPath f) =
      FS.set (FS.erase fs2 tempOut) (tidyOutputPath f) outBytes := by
    rw [FS.rename, hTmp]
  refine ⟨hret, ?_, ?_, ?_⟩
  · rw [hfs, hren, FS.lookup_set, if_pos rfl]
  · intro hff
    rw [hfs, hren, FS.lookup_set, if_neg hff, FS.lookup_erase, if_neg (Ne.symm h1)]
    rw [hfs2]
    by_cases hpre : (FS.lookup fs1 (tidyOutputPath f)).isSome
    · simp only [hpre, if_true]
      rw [FS.lookup_erase, if_neg hff, hfs1, FS.lookup_erase, if_pos rfl]
    · simp only [hpre, Bool.false_eq_true, if_false]
      rw [hfs1, FS.lookup_erase, if_pos rfl]
  · intro q hqf hqfin hqt hqc
    rw [hfs, hren, FS.lookup_set, if_neg hqfin, FS.lookup_erase, if_neg hqt]
    have hq1 : FS.lookup fs1 q = FS.lookup fs q := by
      rw [hfs1, FS.lookup_erase, if_neg hqf, hwlook q hqc, if_neg hqt,
        FS.lookup_set, if_neg hqt]
    rw [hfs2]
    by_cases hpre : (FS.lookup fs1 (tidyOutputPath f)).isSome
    · simp only [hpre, if_true]
      rw [FS.lookup_erase, if_neg hqfin, hq1]
    · simp only [hpre, Bool.false_eq_true, if_false]
      rw [hq1]

/-- C10 — When the metadata pass succeeds, the original input file is deleted
and any pre-existing file at the derived "Artist - Title" output path is
deleted before the new file is moved into place; consequently, when two
distinct input files normalize to the same identity (same derived output
path), only one output file survives and the last writer wins. -/
theorem process_metadata_last_writer_wins (fs : FS)
    (f1 f2 : Str) (th1 th2 : Option ℕ) (lu1 lu2 : Option EnrichmentResult)
    (t1 t2 c1 c2 : Str) (j1 j2 o1 o2 : ℕ)
    (hsame : tidyOutputPath f2 = tidyOutputPath f1)
    (ht1 : t1 ≠ f1) (ht2 : t1 ≠ tidyOutputPath f1) (hc1 : c1 ≠ t1)
    (ht3 : t2 ≠ f2) (ht4 : t2 ≠ tidyOutputPath f2) (hc2 : c2 ≠ t2)
    (hf1fin : f1 ≠ tidyOutputPath f1) (hf2fin : f2 ≠ tidyOutputPath f2)
    (hf12 : f1 ≠ f2) (hf1t2 : f1 ≠ t2) (hf1c2 : f1 ≠ c2) :
    (process_metadata_file_ffmpeg fs f1 th1 lu1 t1 c1 true true j1 o1).ret =
      some (tidyOutputPath f1) ∧
    (process_metadata_file_ffmpeg
      (process_metadata_file_ffmpeg fs f1 th1 lu1 t1 c1 true true j1 o1).fs
      f2 th2 lu2 t2 c2 true true j2 o2).ret = some (tidyOutputPath f1) ∧
    FS.lookup (process_metadata_file_ffmpeg fs f1 th1 lu1 t1 c1 true true j1 o1).fs
      (tidyOutputPath f1) = some o1 ∧
    FS.lookup (process_metadata_file_ffmpeg
      (process_metadata_file_ffmpeg fs f1 th1 lu1 t1 c1 true true j1 o1).fs
      f2 th2 lu2 t2 c2 true true j2 o2).fs (tidyOutputPath f1) = some o2 ∧
    FS.lookup (process_metadata_file_ffmpeg
      (process_metadata_file_ffmpeg fs f1 th1 lu1 t1 c1 true true j1 o1).fs
      f2 th2 lu2 t2 c2 true true j2 o2).fs f1 = none ∧
    FS.lookup (process_metadata_file_ffmpeg
      (process_metadata_file_ffmpeg fs f1 th1 lu1 t1 c1 true true j1 o1).fs
      f2 th2 lu2 t2 c2 true true j2 o2).fs f2 = none := by
  obtain ⟨r1, l1, d1, fr1⟩ :=
    process_metadata_success_spec fs f1 th1 lu1 t1 c1 j1 o1 ht1 ht2 hc1
  obtain ⟨r2, l2, d2, fr2⟩ := process_metadata_success_spec
    (process_metadata_file_ffmpeg fs f1 th1 lu1 t1 c1 true true j1 o1).fs
    f2 th2 lu2 t2 c2 j2 o2 ht3 ht4 hc2
  refine ⟨r1, ?_, l1, ?_, ?_, d2 hf2fin⟩
  · rw [r2, hsame]
  · rw [← hsame]
    exact l2
  · rw [fr2 f1 hf12 (by rw [hsame]; exact hf1fin) hf1t2 hf1c2]
    exact d1 hf1fin

/-- C10 witness: `d/ac dc - tnt.mp3` and `d/AC_DC - TNT.mp3` both normalize
to the output path `d/Ac Dc - Tnt.mp3`; after processing both, only that
output exists, holding the second writer's bytes. -/
theorem process_metadata_last_writer_wins_witness :
    (process_metadata_file_ffmpeg [] "d/ac dc - tnt.mp3".toList none none
      "d/tmp1".toList "d/cov1".toList true true 11 21).ret =
      some (tidyOutputPath "d/ac dc - tnt.mp3".toList) ∧
    (process_metadata_file_ffmpeg
      (process_metadata_file_ffmpeg [] "d/ac dc - tnt.mp3".toList none none
        "d/tmp1".toList "d/cov1".toList true true 11 21).fs
      "d/AC_DC - TNT.mp3".toList none none "d/tmp2".toList "d/cov2".toList
      true true 12 22).ret = some (tidyOutputPath "d/ac dc - tnt.mp3".toList) ∧
    FS.lookup (process_metadata_file_ffmpeg [] "d/ac dc - tnt.mp3".toList none none
      "d/tmp1".toList "d/cov1".toList true true 11 21).fs
      (tidyOutputPath "d/ac dc - tnt.mp3".toList) = some 21 ∧
    FS.lookup (process_metadata_file_ffmpeg
      (process_metadata_file_ffmpeg [] "d/ac dc - tnt.mp3".toList none none
        "d/tmp1".toList "d/cov1".toList true true 11 21).fs
      "d/AC_DC - TNT.mp3".toList none none "d/tmp2".toList "d/cov2".toList
      true true 12 22).fs (tidyOutputPath "d/ac dc - tnt.mp3".toList) = some 22 ∧
    FS.lookup (process_metadata_file_ffmpeg
      (process_metadata_file_ffmpeg [] "d/ac dc - tnt.mp3".toList none none
        "d/tmp1".toList "d/cov1".toList true true 11 21).fs
      "d/AC_DC - TNT.mp3".toList none none "d/tmp2".toList "d/cov2".toList
      true true 12 22).fs "d/ac dc - tnt.mp3".toList = none ∧
    FS.lookup (process_metadata_file_ffmpeg
      (process_metadata_file_ffmpeg [] "d/ac dc - tnt.mp3".toList none none
        "d/tmp1".toList "d/cov1".toList true true 11 21).fs
      "d/AC_DC - TNT.mp3".toList none none "d/tmp2".toList "d/cov2".toList
      true true 12 22).fs "d/AC_DC - TNT.mp3".toList = none :=
  process_metadata_last_writer_wins [] "d/ac dc - tnt.mp3".toList
    "d/AC_DC - TNT.mp3".toList none none none none "d/tmp1".toList "d/tmp2".toList
    "d/cov1".toList "d/cov2".toList 11 12 21 22
    (by decide) (by decide) (by decide) (by decide) (by decide) (by decide)
    (by decide) (by decide) (by decide) (by decide) (by decide) (by decide)

/-! ## Character-level lemmas for the casing model -/

theorem u32_le_iff (a b : UInt32) : a ≤ b ↔ a.toNat ≤ b.toNat := by
  rw [UInt32.le_def, BitVec.le_def]
  rfl

theorem charToNat_inj {c d : Char} (h : c.toNat = d.toNat) : c = d :=
  Char.eq_of_val_eq (UInt32.ext h)

theorem isUpper_iff (c : Char) : c.isUpper = true ↔ 65 ≤ c.toNat ∧ c.toNat ≤ 90 := by
  simp [Char.isUpper, ge_iff_le, u32_le_iff]
  rfl

theorem isLower_iff (c : Char) : c.isLower = true ↔ 97 ≤ c.toNat ∧ c.toNat ≤ 122 := by
  simp [Char.isLower, ge_iff_le, u32_le_iff]
  rfl

theorem isCased_iff (c : Char) : isCasedChar c = true ↔
    (65 ≤ c.toNat ∧ c.toNat ≤ 90) ∨ (97 ≤ c.toNat ∧ c.toNat ≤ 122) := by
  simp [isCasedChar, Char.isAlpha, isUpper_iff, isLower_iff]

theorem toUpper_cases (c : Char) :
    c.toUpper = c ∨ (97 ≤ c.toNat ∧ c.toNat ≤ 122 ∧ c.toUpper.toNat = c.toNat - 32) := by
  by_cases h : c.toNat ≥ 97 ∧ c.toNat ≤ 122
  · right
    refine ⟨h.1, h.2, ?_⟩
    have hv : (c.toNat - 32).isValidChar := by
      left
      omega
    show (Char.toUpper c).toNat = _
    unfold Char.toUpper
    rw [if_pos h]
    simp [Char.ofNat, hv]
    rfl
  · left
    unfold Char.toUpper
    rw [if_neg h]

theorem toLower_cases (c : Char) :
    c.toLower = c ∨ (65 ≤ c.toNat ∧ c.toNat ≤ 90 ∧ c.toLower.toNat = c.toNat + 32) := by
  by_cases h : c.toNat ≥ 65 ∧ c.toNat ≤ 90
  · right
    refine ⟨h.1, h.2, ?_⟩
    have hv : (c.toNat + 32).isValidChar := by
      left
      omega
    show (Char.toLower c).toNat = _
    unfold Char.toLower
    rw [if_pos h]
    simp [Char.ofNat, hv]
    rfl
  · left
    unfold Char.toLower
    rw [if_neg h]

theorem toUpper_toNat_cased {c : Char} (h : isCasedChar c = true) :
    isCasedChar c.toUpper = true := by
  rcases toUpper_cases c with heq | ⟨h1, h2, h3⟩
  · rw [heq]
    exact h
  · rw [isCased_iff, h3]
    left
    omega

theorem toLower_toNat_cased {c : Char} (h : isCasedChar c = true) :
    isCasedChar c.toLower = true := by
  rcases toLower_cases c with heq | ⟨h1, h2, h3⟩
  · rw [heq]
    exact h
  · rw [isCased_iff, h3]
    right
    omega

theorem caseLike_refl (c : Char) : CaseLike c c := Or.inl rfl

theorem caseLike_toUpper (c : Char) : CaseLike c c.toUpper := by
  rcases toUpper_cases c with heq | ⟨h1, h2, h3⟩
  · exact Or.inl heq
  · right
    constructor
    · rw [isCased_iff]
      right
      exact ⟨h1, h2⟩
    · rw [isCased_iff, h3]
      left
      omega

theorem caseLike_toLower (c : Char) : CaseLike c c.toLower := by
  rcases toLower_cases c with heq | ⟨h1, h2, h3⟩
  · exact Or.inl heq
  · right
    constructor
    · rw [isCased_iff]
      left
      exact ⟨h1, h2⟩
    · rw [isCased_iff, h3]
      right
      omega

theorem cased_ne {c x : Char} (hc : isCasedChar c = true)
    (hx : isCasedChar x = false) : c ≠ x := by
  intro h
  rw [h] at hc
  rw [hc] at hx
  exact absurd hx (by simp)

theorem caseLike_eq_special {c e : Char} (h : CaseLike c e) {x : Char}
    (hx : isCasedChar x = false) : (e = x) ↔ (c = x) := by
  rcases h with rfl | ⟨hc, he⟩
  · exact Iff.rfl
  · constructor
    · intro h2
      exact absurd h2 (cased_ne he hx)
    · intro h2
      exact absurd h2 (cased_ne hc hx)

theorem caseLike_isCased {c e : Char} (h : CaseLike c e) :
    isCasedChar e = isCasedChar c := by
  rcases h with rfl | ⟨hc, he⟩
  · rfl
  · rw [hc, he]

theorem cased_not_space {c : Char} (hc : isCasedChar c = true) :
    isSpaceChar c = false := by
  rw [isCased_iff] at hc
  have h1 : c ≠ ' ' := fun h => by rw [h] at hc; simp at hc
  have h2 : c ≠ '\t' := fun h => by rw [h] at hc; simp at hc
  have h3 : c ≠ '\n' := fun h => by rw [h] at hc; simp at hc
  have h4 : c ≠ '\r' := fun h => by rw [h] at hc; simp at hc
  have h5 : c ≠ '\x0b' := fun h => by rw [h] at hc; simp at hc
  have h6 : c ≠ '\x0c' := fun h => by rw [h] at hc; simp at hc
  simp [isSpaceChar, h1, h2, h3, h4, h5, h6]

theorem caseLike_isSpace {c e : Char} (h : CaseLike c e) :
    isSpaceChar e = isSpaceChar c := by
  rcases h with rfl | ⟨hc, he⟩
  · rfl
  · rw [cased_not_space hc, cased_not_space he]

theorem cased_not_emoji {c : Char} (hc : isCasedChar c = true) :
    isEmojiChar c = false := by
  rw [isCased_iff] at hc
  simp [isEmojiChar]
  omega

theorem caseLike_isEmoji {c e : Char} (h : CaseLike c e) :
    isEmojiChar e = isEmojiChar c := by
  rcases h with rfl | ⟨hc, he⟩
  · rfl
  · rw [cased_not_emoji hc, cased_not_emoji he]

theorem cased_not_unsafe {c : Char} (hc : isCasedChar c = true) :
    isUnsafeChar c = false := by
  rw [isCased_iff] at hc
  have h1 : c ≠ '\\' := fun h => by rw [h] at hc; simp at hc
  have h2 : c ≠ '/' := fun h => by rw [h] at hc; simp at hc
  have h3 : c ≠ '*' := fun h => by rw [h] at hc; simp at hc
  have h4 : c ≠ '?' := fun h => by rw [h] at hc; simp at hc
  have h5 : c ≠ ':' := fun h => by rw [h] at hc; simp at hc
  have h6 : c ≠ '"' := fun h => by rw [h] at hc; simp at hc
  have h7 : c ≠ '<' := fun h => by rw [h] at hc; simp at hc
  have h8 : c ≠ '>' := fun h => by rw [h] at hc; simp at hc
  have h9 : c ≠ '|' := fun h => by rw [h] at hc; simp at hc
  simp [isUnsafeChar, h1, h2, h3, h4, h5, h6, h7, h8, h9]

theorem specials_not_cased :
    isCasedChar '_' = false ∧ isCasedChar '(' = false ∧ isCasedChar ')' = false ∧
    isCasedChar '[' = false ∧ isCasedChar ']' = false ∧ isCasedChar ' ' = false ∧
    isCasedChar '-' = false ∧ isCasedChar '.' = false := by
  decide

theorem toUpper_idem (c : Char) : c.toUpper.toUpper = c.toUpper := by
  rcases toUpper_cases c with heq | ⟨h1, h2, h3⟩
  · rw [heq, heq]
  · rcases toUpper_cases c.toUpper with heq2 | ⟨h4, h5, h6⟩
    · exact heq2
    · rw [h3] at h4
      omega

theorem toLower_idem (c : Char) : c.toLower.toLower = c.toLower := by
  rcases toLower_cases c with heq | ⟨h1, h2, h3⟩
  · rw [heq, heq]
  · rcases toLower_cases c.toLower with heq2 | ⟨h4, h5, h6⟩
    · exact heq2
    · rw [h3] at h5
      omega

/-! ## `pyTitle` as a case-image map -/

theorem pyTitleGo_forall₂ (b : Bool) (s : Str) :
    List.Forall₂ CaseLike s (pyTitleGo b s) := by
  induction s generalizing b with
  | nil => exact List.Forall₂.nil
  | cons c rest ih =>
    rw [pyTitleGo]
    refine List.Forall₂.cons ?_ (ih _)
    cases b
    · simpa using caseLike_toUpper c
    · simpa using caseLike_toLower c

theorem pyTitleGo_length (b : Bool) (s : Str) : (pyTitleGo b s).length = s.length :=
  (pyTitleGo_forall₂ b s).length_eq.symm

theorem pyTitleGo_idem (b : Bool) (s : Str) :
    pyTitleGo b (pyTitleGo b s) = pyTitleGo b s := by
  induction s generalizing b with
  | nil => rfl
  | cons c rest ih =>
    rw [pyTitleGo, pyTitleGo]
    cases b
    · simp only [Bool.false_eq_true, if_false]
      rw [caseLike_isCased (caseLike_toUpper c), toUpper_idem, ih]
    · simp only [if_true]
      rw [caseLike_isCased (caseLike_toLower c), toLower_idem, ih]

theorem pyTitle_idem (s : Str) : pyTitle (pyTitle s) = pyTitle s :=
  pyTitleGo_idem false s

/-! ## Transport of the analysis predicates along `CaseLike` -/

theorem forall₂_all_congr {R : Char → Char → Prop} {p : Char → Bool}
    (hp : ∀ c e, R c e → p e = p c) :
    ∀ {s t : Str}, List.Forall₂ R s t → t.all p = s.all p := by
  intro s t h
  induction h with
  | nil => rfl
  | cons hce _ ih => simp [List.all_cons, hp _ _ hce, ih]

theorem forall₂_mem_special {s t : Str} (h : List.Forall₂ CaseLike s t) {x : Char}
    (hx : isCasedChar x = false) : x ∈ t ↔ x ∈ s := by
  induction h with
  | nil => exact Iff.rfl
  | @cons c e s₀ t₀ hce _ ih =>
    simp only [List.mem_cons]
    constructor
    · rintro (rfl | hm)
      · exact Or.inl (((caseLike_eq_special hce hx).1 rfl).symm)
      · exact Or.inr (ih.1 hm)
    · rintro (rfl | hm)
      · exact Or.inl (((caseLike_eq_special hce hx).2 rfl).symm)
      · exact Or.inr (ih.2 hm)

theorem forall₂_contains_special {s t : Str} (h : List.Forall₂ CaseLike s t)
    {x : Char} (hx : isCasedChar x = false) : t.contains x = s.contains x := by
  by_cases hm : x ∈ s
  · have e1 : s.contains x = true := List.elem_iff.2 hm
    have e2 : t.contains x = true := List.elem_iff.2 ((forall₂_mem_special h hx).2 hm)
    rw [e1, e2]
  · have hm2 : x ∉ t := fun h2 => hm ((forall₂_mem_special h hx).1 h2)
    have e1 : s.contains x = false := by
      rw [← Bool.not_eq_true]
      intro hh
      exact hm (List.elem_iff.1 hh)
    have e2 : t.contains x = false := by
      rw [← Bool.not_eq_true]
      intro hh
      exact hm2 (List.elem_iff.1 hh)
    rw [e1, e2]

theorem forall₂_pairClean {o k : Char} (ho : isCasedChar o = false)
    (hk : isCasedChar k = false) :
    ∀ {s t : Str}, List.Forall₂ CaseLike s t → pairClean o k t = pairClean o k s := by
  intro s t h
  induction h with
  | nil => rfl
  | @cons c e s₀ t₀ hce hrest ih =>
    rw [pairClean, pairClean, ih]
    congr 1
    by_cases hco : c = o
    · have heo : e = o := (caseLike_eq_special hce ho).2 hco
      rw [if_pos hco, if_pos heo, forall₂_contains_special hrest hk]
    · have heo : ¬e = o := fun h2 => hco ((caseLike_eq_special hce ho).1 h2)
      rw [if_neg hco, if_neg heo]

theorem forall₂_noDbl : ∀ {s t : Str}, List.Forall₂ CaseLike s t →
    noDbl t = noDbl s := by
  intro s t h
  induction h with
  | nil => rfl
  | @cons c e s₀ t₀ hce hrest ih =>
    cases hrest with
    | nil => rfl
    | @cons c2 e2 s₁ t₁ hce2 hrest2 =>
      rw [noDbl, noDbl]
      have b1 : (decide (e = ' ')) = (decide (c = ' ')) :=
        decide_eq_decide.2 (caseLike_eq_special hce (by decide))
      have b2 : (decide (e2 = ' ')) = (decide (c2 = ' ')) :=
        decide_eq_decide.2 (caseLike_eq_special hce2 (by decide))
      rw [b1, b2, ih]

theorem forall₂_noWsHead : ∀ {s t : Str}, List.Forall₂ CaseLike s t →
    noWsHead t = noWsHead s := by
  intro s t h
  cases h with
  | nil => rfl
  | cons hce _ => simp [noWsHead, caseLike_isSpace hce]

theorem forall₂_strippedStr {s t : Str} (h : List.Forall₂ CaseLike s t) :
    strippedStr t = strippedStr s := by
  rw [strippedStr, strippedStr, forall₂_noWsHead h,
    forall₂_noWsHead (List.rel_reverse h)]

theorem take2_sep_special {s t : Str} (h : List.Forall₂ CaseLike s t) :
    (t.take 2 = ['-', ' ']) ↔ (s.take 2 = ['-', ' ']) := by
  cases h with
  | nil => exact Iff.rfl
  | @cons c e s₀ t₀ hce hrest =>
    cases hrest with
    | nil =>
      constructor <;> intro h2 <;> simp at h2
    | @cons c2 e2 s₁ t₁ hce2 hrest2 =>
      have htk : ∀ (x y : Char) (l : Str), List.take 2 (x :: y :: l) = [x, y] :=
        fun _ _ _ => rfl
      rw [htk, htk]
      constructor
      · intro h2
        simp only [List.cons.injEq, and_true] at h2 ⊢
        exact ⟨(caseLike_eq_special hce (by decide)).1 h2.1,
          (caseLike_eq_special hce2 (by decide)).1 h2.2⟩
      · intro h2
        simp only [List.cons.injEq, and_true] at h2 ⊢
        exact ⟨(caseLike_eq_special hce (by decide)).2 h2.1,
          (caseLike_eq_special hce2 (by decide)).2 h2.2⟩

theorem forall₂_noSepSub : ∀ {s t : Str}, List.Forall₂ CaseLike s t →
    noSepSub t = noSepSub s := by
  intro s t h
  induction h with
  | nil => rfl
  | @cons c e s₀ t₀ hce hrest ih =>
    rw [noSepSub, noSepSub, ih]
    congr 1
    have b1 : (decide (e = ' ')) = (decide (c = ' ')) :=
      decide_eq_decide.2 (caseLike_eq_special hce (by decide))
    have b2 : (decide (t₀.take 2 = ['-', ' '])) = (decide (s₀.take 2 = ['-', ' '])) :=
      decide_eq_decide.2 (take2_sep_special hrest)
    rw [b1, b2]

/-! ## Sublist stability of the analysis predicates -/

theorem all_of_sublist {p : Char → Bool} {s t : Str} (h : List.Sublist s t)
    (ht : t.all p = true) : s.all p = true := by
  rw [List.all_eq_true] at ht ⊢
  exact fun x hx => ht x (h.subset hx)

theorem bool_not_of_ne_true {b : Bool} (h : ¬b = true) : (!b) = true := by
  cases b
  · rfl
  · exact absurd rfl h

theorem pairClean_cons (o k c : Char) (rest : Str) :
    pairClean o k (c :: rest) =
      ((if c = o then !rest.contains k else true) && pairClean o k rest) := rfl

theorem contains_false_of_not_mem {s : Str} {x : Char} (h : x ∉ s) :
    s.contains x = false := by
  rw [← Bool.not_eq_true]
  intro hh
  exact h (List.elem_iff.1 hh)

theorem pairClean_of_sublist {o k : Char} : ∀ {s t : Str}, List.Sublist s t →
    pairClean o k t = true → pairClean o k s = true := by
  intro s t h
  induction h with
  | slnil => intro h2; exact h2
  | @cons l₁ l₂ a h ih =>
    intro h2
    rw [pairClean_cons, Bool.and_eq_true] at h2
    exact ih h2.2
  | @cons₂ l₁ l₂ a h ih =>
    intro h2
    rw [pairClean_cons, Bool.and_eq_true] at h2
    rw [pairClean_cons, Bool.and_eq_true]
    refine ⟨?_, ih h2.2⟩
    by_cases ha : a = o
    · rw [if_pos ha]
      rw [if_pos ha] at h2
      have hk : k ∉ l₂ := by
        intro hm
        have hx := h2.1
        have hck : l₂.contains k = true := List.elem_iff.2 hm
        rw [hck] at hx
        exact absurd hx (by decide)
      have hk1 : k ∉ l₁ := fun hm => hk (h.subset hm)
      rw [contains_false_of_not_mem hk1]
      rfl
    · rw [if_neg ha]

theorem stripL_sublist (s : Str) : List.Sublist (stripL s) s :=
  List.dropWhile_sublist _

theorem stripR_sublist (s : Str) : List.Sublist (stripR s) s := by
  have h := (List.dropWhile_sublist (l := s.reverse) isSpaceChar).reverse
  simpa [stripR, stripL] using h

theorem pyStrip_sublist (s : Str) : List.Sublist (pyStrip s) s :=
  (stripR_sublist _).trans (stripL_sublist _)

theorem squeezeSpaces_sublist : ∀ s : Str, List.Sublist (squeezeSpaces s) s
  | [] => List.Sublist.slnil
  | [_] => List.Sublist.refl _
  | c1 :: c2 :: rest => by
    rw [squeezeSpaces]
    have ih := squeezeSpaces_sublist (c2 :: rest)
    split
    · exact ih.cons c1
    · exact ih.cons₂ c1

theorem removePairGo_sublist (o k : Char) : ∀ (b : Bool) (s : Str),
    List.Sublist (removePairGo o k b s) s
  | b, [] => by cases b <;> exact List.Sublist.slnil
  | true, c :: rest => by
    rw [removePairGo]
    split
    · exact (removePairGo_sublist o k false rest).cons c
    · exact (removePairGo_sublist o k true rest).cons c
  | false, c :: rest => by
    rw [removePairGo]
    split
    · exact (removePairGo_sublist o k true rest).cons c
    · exact (removePairGo_sublist o k false rest).cons₂ c

/-! ## Fixed points of the cleaning operations -/

theorem stripL_eq_self {s : Str} (h : noWsHead s = true) : stripL s = s := by
  cases s with
  | nil => rfl
  | cons c rest =>
    rw [noWsHead] at h
    rw [stripL, List.dropWhile_cons, if_neg (by simp_all)]

theorem stripR_eq_self {s : Str} (h : noWsHead s.reverse = true) : stripR s = s := by
  rw [stripR, stripL_eq_self h, List.reverse_reverse]

theorem pyStrip_eq_self {s : Str} (h : strippedStr s = true) : pyStrip s = s := by
  rw [strippedStr, Bool.and_eq_true] at h
  rw [pyStrip, stripL_eq_self h.1, stripR_eq_self h.2]

theorem squeezeSpaces_eq_self : ∀ {s : Str}, noDbl s = true → squeezeSpaces s = s
  | [], _ => rfl
  | [_], _ => rfl
  | c1 :: c2 :: rest, h => by
    rw [noDbl, Bool.and_eq_true] at h
    rw [squeezeSpaces, if_neg (fun hcc => by rw [hcc] at h; exact absurd h.1 (by decide)),
      squeezeSpaces_eq_self h.2]

theorem map_eq_self_of {f : Char → Char} {s : Str} (h : ∀ c ∈ s, f c = c) :
    s.map f = s := by
  induction s with
  | nil => rfl
  | cons c rest ih =>
    rw [List.map_cons, h c (by simp), ih (fun x hx => h x (by simp [hx]))]

theorem collapseWS_eq_self {s : Str}
    (h1 : s.all (fun c => !isSpaceChar c || c = ' ') = true) (h2 : noDbl s = true) :
    collapseWS s = s := by
  have hmap : s.map toSpace = s := by
    apply map_eq_self_of
    intro c hc
    have := List.all_eq_true.1 h1 c hc
    by_cases hsp : isSpaceChar c = true
    · have hcsp : c = ' ' := by simpa [hsp] using this
      rw [toSpace, if_pos hsp, hcsp]
    · rw [toSpace, if_neg (by simp_all)]
  rw [collapseWS, hmap, squeezeSpaces_eq_self h2]

theorem removePairGo_eq_self {o k : Char} : ∀ {s : Str},
    pairClean o k s = true → removePairGo o k false s = s
  | [], _ => rfl
  | c :: rest, h => by
    rw [pairClean_cons, Bool.and_eq_true] at h
    by_cases hc : c = o
    · have hcon : rest.contains k = false := by
        have := h.1
        rw [if_pos hc] at this
        simpa using this
      rw [removePairGo,
        if_neg (fun hcc => by rw [hcon] at hcc; simp at hcc),
        removePairGo_eq_self h.2]
    · rw [removePairGo, if_neg (by simp [hc]), removePairGo_eq_self h.2]

theorem filter_eq_self_of {p : Char → Bool} {s : Str} (h : s.all p = true) :
    s.filter p = s :=
  List.filter_eq_self.2 (List.all_eq_true.1 h)

theorem clean_filename_extras_eq_self {s : Str}
    (hp : pairClean '(' ')' s = true) (hb : pairClean '[' ']' s = true)
    (hw : s.all (fun c => !isSpaceChar c || c = ' ') = true)
    (hd : noDbl s = true) (hs : strippedStr s = true) :
    clean_filename_extras s = s := by
  rw [clean_filename_extras, removeParens, removePairGo_eq_self hp,
    removeBrackets, removePairGo_eq_self hb, collapseWS_eq_self hw hd,
    pyStrip_eq_self hs]

/-! ## Shape of the cleaning operations' outputs -/

theorem noWsHead_stripL (s : Str) : noWsHead (stripL s) = true := by
  induction s with
  | nil => rfl
  | cons c rest ih =>
    rw [stripL, List.dropWhile_cons]
    by_cases h : isSpaceChar c = true
    · rw [if_pos h]
      exact ih
    · rw [if_neg (by simp_all)]
      rw [noWsHead]
      simp_all

theorem stripR_isPrefix (s : Str) : List.IsPrefix (stripR s) s := by
  have h := List.dropWhile_suffix (l := s.reverse) isSpaceChar
  have h2 := List.reverse_prefix.2 h
  rw [List.reverse_reverse] at h2
  exact h2

theorem noWsHead_of_isPrefix {s t : Str} (h : List.IsPrefix t s)
    (hs : noWsHead s = true) : noWsHead t = true := by
  cases t with
  | nil => rfl
  | cons c rest =>
    obtain ⟨u, hu⟩ := h
    rw [← hu] at hs
    exact hs

theorem stripR_reverse (s : Str) : (stripR s).reverse = stripL s.reverse := by
  rw [stripR, List.reverse_reverse]

theorem strippedStr_pyStrip (s : Str) : strippedStr (pyStrip s) = true := by
  rw [strippedStr, Bool.and_eq_true]
  constructor
  · exact noWsHead_of_isPrefix (stripR_isPrefix (stripL s)) (noWsHead_stripL s)
  · rw [pyStrip, stripR_reverse]
    exact noWsHead_stripL _

theorem squeeze_head : ∀ s : Str, (squeezeSpaces s).head? = s.head?
  | [] => rfl
  | [_] => rfl
  | c1 :: c2 :: rest => by
    rw [squeezeSpaces]
    split
    · next h =>
      rw [squeeze_head (c2 :: rest)]
      simp only [List.head?]
      rw [Bool.and_eq_true] at h
      have h1 : c1 = ' ' := of_decide_eq_true h.1
      have h2 : c2 = ' ' := of_decide_eq_true h.2
      rw [h1, h2]
    · rfl

theorem noDbl_squeeze : ∀ s : Str, noDbl (squeezeSpaces s) = true
  | [] => rfl
  | [_] => rfl
  | c1 :: c2 :: rest => by
    rw [squeezeSpaces]
    split
    · next h => exact noDbl_squeeze (c2 :: rest)
    · next h =>
      have ih := noDbl_squeeze (c2 :: rest)
      have hh := squeeze_head (c2 :: rest)
      cases hsq : squeezeSpaces (c2 :: rest) with
      | nil => rfl
      | cons d rest2 =>
        rw [hsq] at ih hh
        simp only [List.head?, Option.some.injEq] at hh
        rw [noDbl, Bool.and_eq_true]
        refine ⟨?_, ih⟩
        rw [hh]
        exact bool_not_of_ne_true h

theorem wsOnly_collapse (s : Str) :
    (collapseWS s).all (fun c => !isSpaceChar c || c = ' ') = true := by
  have hmap : (s.map toSpace).all (fun c => !isSpaceChar c || c = ' ') = true := by
    rw [List.all_eq_true]
    intro x hx
    rw [List.mem_map] at hx
    obtain ⟨c, _, rfl⟩ := hx
    by_cases h : isSpaceChar c = true <;> simp [toSpace, h]
  exact all_of_sublist (squeezeSpaces_sublist _) hmap

theorem pairClean_removePairGo (o k : Char) : ∀ (b : Bool) (s : Str),
    pairClean o k (removePairGo o k b s) = true
  | b, [] => by cases b <;> rfl
  | true, c :: rest => by
    rw [removePairGo]
    split
    · exact pairClean_removePairGo o k false rest
    · exact pairClean_removePairGo o k true rest
  | false, c :: rest => by
    rw [removePairGo]
    split
    · exact pairClean_removePairGo o k true rest
    · next h =>
      rw [pairClean_cons, Bool.and_eq_true]
      refine ⟨?_, pairClean_removePairGo o k false rest⟩
      by_cases hc : c = o
      · rw [if_pos hc]
        have hcon : rest.contains k = false := by
          by_cases hcon2 : rest.contains k = true
          · have hcond : (decide (c = o) && rest.contains k) = true := by
              rw [hcon2, decide_eq_true hc]
              rfl
            exact absurd hcond h
          · simpa using hcon2
        have hk : k ∉ rest := by
          intro hm
          have hck : rest.contains k = true := List.elem_iff.2 hm
          rw [hck] at hcon
          exact absurd hcon (by decide)
        have hk2 : k ∉ removePairGo o k false rest :=
          fun hm => hk ((removePairGo_sublist o k false rest).subset hm)
        rw [contains_false_of_not_mem hk2]
        rfl
      · rw [if_neg hc]


/-! ## `noDbl` decomposition and reassembly -/

theorem noDbl_cons_elim {c : Char} {s : Str} (h : noDbl (c :: s) = true) :
    noDbl s = true := by
  cases s with
  | nil => rfl
  | cons d rest =>
    rw [noDbl, Bool.and_eq_true] at h
    exact h.2

theorem noDbl_append_right : ∀ {x y : Str}, noDbl (x ++ y) = true → noDbl y = true := by
  intro x
  induction x with
  | nil => exact fun h => h
  | cons c x' ih =>
    intro y h
    rw [List.cons_append] at h
    exact ih (noDbl_cons_elim h)

theorem noWsHead_iff (s : Str) : noWsHead s = true ↔
    ∀ d, s.head? = some d → isSpaceChar d = false := by
  cases s with
  | nil => simp [noWsHead]
  | cons c rest => simp [noWsHead, List.head?]

theorem noDbl_cons_intro {c : Char} {z : Str} (hz : noDbl z = true)
    (hh : ∀ d, z.head? = some d → ¬(c = ' ' ∧ d = ' ')) : noDbl (c :: z) = true := by
  cases z with
  | nil => rfl
  | cons d z' =>
    rw [noDbl, Bool.and_eq_true]
    refine ⟨?_, hz⟩
    apply bool_not_of_ne_true
    intro hb
    rw [Bool.and_eq_true] at hb
    exact hh d rfl ⟨of_decide_eq_true hb.1, of_decide_eq_true hb.2⟩

theorem noDbl_append_intro : ∀ {x : Str} {y : Str}, noDbl x = true → noDbl y = true →
    (∀ cx cy, x.getLast? = some cx → y.head? = some cy → ¬(cx = ' ' ∧ cy = ' ')) →
    noDbl (x ++ y) = true
  | [], y, _, hy, _ => hy
  | [c], y, _, hy, hb => by
    rw [List.singleton_append]
    exact noDbl_cons_intro hy (fun d hd => hb c d rfl hd)
  | c :: d :: x', y, hx, hy, hb => by
    rw [List.cons_append]
    have htail : noDbl ((d :: x') ++ y) = true := by
      refine noDbl_append_intro (noDbl_cons_elim hx) hy ?_
      intro cx cy hcx hcy
      refine hb cx cy ?_ hcy
      rw [List.getLast?_cons_cons]
      exact hcx
    apply noDbl_cons_intro htail
    intro e he
    rw [List.cons_append, List.head?_cons, Option.some.injEq] at he
    rw [noDbl, Bool.and_eq_true] at hx
    intro hce
    have : (decide (c = ' ') && decide (d = ' ')) = true := by
      rw [decide_eq_true hce.1, decide_eq_true (he ▸ hce.2)]
      rfl
    rw [this] at hx
    exact absurd hx.1 (by decide)

theorem noDbl_no_space_before_sep : ∀ {x y : Str},
    noDbl (x ++ ' ' :: y) = true → ∀ cx, x.getLast? = some cx → cx ≠ ' '
  | [], _, _, cx, hcx => by simp at hcx
  | [c], y, h, cx, hcx => by
    rw [List.singleton_append, noDbl, Bool.and_eq_true] at h
    simp only [List.getLast?_singleton, Option.some.injEq] at hcx
    intro hc
    have : (decide (c = ' ') && decide (' ' = ' ')) = true := by
      rw [decide_eq_true (hcx ▸ hc)]
      rfl
    rw [this] at h
    exact absurd h.1 (by decide)
  | c :: d :: x', y, h, cx, hcx => by
    rw [List.getLast?_cons_cons] at hcx
    rw [List.cons_append] at h
    exact noDbl_no_space_before_sep (noDbl_cons_elim h) cx hcx

/-! ## `splitOnceSep` characterization -/

theorem splitOnceSep_cons (c : Char) (rest : Str) :
    splitOnceSep (c :: rest) =
      if c = ' ' && rest.take 2 = ['-', ' '] then some ([], rest.drop 2)
      else
        match splitOnceSep rest with
        | some (a, b) => some (c :: a, b)
        | none => none := rfl

theorem splitOnceSep_none_noSep : ∀ {s : Str}, splitOnceSep s = none →
    noSepSub s = true
  | [], _ => rfl
  | c :: rest, h => by
    rw [splitOnceSep_cons] at h
    by_cases hc : (c = ' ' && rest.take 2 = ['-', ' ']) = true
    · rw [if_pos hc] at h
      exact absurd h (by simp)
    · rw [if_neg hc] at h
      have hns : noSepSub (c :: rest) =
          (!(c = ' ' && rest.take 2 = ['-', ' ']) && noSepSub rest) := rfl
      rw [hns, Bool.and_eq_true]
      refine ⟨bool_not_of_ne_true hc, ?_⟩
      rcases hrest : splitOnceSep rest with _ | ⟨a, b⟩
      · exact splitOnceSep_none_noSep hrest
      · rw [hrest] at h
        exact absurd h (by simp)

theorem take2_append_agree : ∀ (a : Str) {x y : Str}, x.take 2 = y.take 2 →
    (a ++ x).take 2 = (a ++ y).take 2
  | [], _, _, h => h
  | [c], x, y, h => by
    have h1 : x.take 1 = y.take 1 := by
      have := congrArg (List.take 1) h
      simpa [List.take_take] using this
    simp [List.take_cons, h1]
  | c :: d :: a', x, y, _ => by
    simp [List.take_cons]

theorem splitOnceSep_append (t : Str) : ∀ {a : Str},
    noSepSub (a ++ [' ', '-']) = true →
    splitOnceSep (a ++ ' ' :: '-' :: ' ' :: t) = some (a, t)
  | [], _ => by
    rw [List.nil_append, splitOnceSep_cons, if_pos (by simp)]
    rfl
  | c :: a', h => by
    rw [List.cons_append] at h
    have hns : noSepSub (c :: (a' ++ [' ', '-'])) =
        (!(c = ' ' && (a' ++ [' ', '-']).take 2 = ['-', ' ']) &&
          noSepSub (a' ++ [' ', '-'])) := rfl
    rw [hns, Bool.and_eq_true] at h
    rw [List.cons_append, splitOnceSep_cons]
    have hagree : (a' ++ ' ' :: '-' :: ' ' :: t).take 2 = (a' ++ [' ', '-']).take 2 :=
      take2_append_agree a' (by rfl)
    have hcond : ¬(c = ' ' && (a' ++ ' ' :: '-' :: ' ' :: t).take 2 = ['-', ' ']) = true := by
      intro hb
      rw [Bool.and_eq_true] at hb
      apply absurd h.1
      have : (decide (c = ' ') && decide ((a' ++ [' ', '-']).take 2 = ['-', ' '])) = true := by
        rw [hb.1, ← hagree, hb.2]
        rfl
      rw [this]
      decide
    rw [if_neg hcond, splitOnceSep_append t h.2]

theorem splitOnceSep_some : ∀ {s a b : Str}, splitOnceSep s = some (a, b) →
    s = a ++ ' ' :: '-' :: ' ' :: b ∧ noSepSub (a ++ [' ', '-']) = true := by
  intro s
  induction s with
  | nil => intro a b h; exact absurd h (by simp [splitOnceSep])
  | cons c rest ih =>
    intro a b h
    rw [splitOnceSep_cons] at h
    by_cases hc : (c = ' ' && rest.take 2 = ['-', ' ']) = true
    · rw [if_pos hc] at h
      rw [Bool.and_eq_true] at hc
      have hcsp : c = ' ' := of_decide_eq_true hc.1
      have htk : rest.take 2 = ['-', ' '] := of_decide_eq_true hc.2
      simp only [Option.some.injEq, Prod.mk.injEq] at h
      obtain ⟨ha, hb⟩ := h
      subst ha hb hcsp
      constructor
      · rw [List.nil_append]
        have hrec : rest = rest.take 2 ++ rest.drop 2 := (List.take_append_drop 2 rest).symm
        rw [htk] at hrec
        exact congrArg (' ' :: ·) hrec
      · decide
    · rw [if_neg hc] at h
      rcases hrest : splitOnceSep rest with _ | ⟨a', b'⟩
      · rw [hrest] at h
        exact absurd h (by simp)
      · rw [hrest] at h
        simp only [Option.some.injEq, Prod.mk.injEq] at h
        obtain ⟨ha, hb⟩ := h
        obtain ⟨hs, hns⟩ := ih hrest
        subst hb
        rw [← ha, List.cons_append, ← hs]
        refine ⟨rfl, ?_⟩
        rw [List.cons_append, noSepSub, Bool.and_eq_true]
        refine ⟨?_, hns⟩
        apply bool_not_of_ne_true
        intro hb2
        rw [Bool.and_eq_true] at hb2
        apply hc
        rw [hs]
        have hagree : (a' ++ [' ', '-']).take 2 = (a' ++ ' ' :: '-' :: ' ' :: b').take 2 :=
          take2_append_agree a' (by rfl)
        rw [hb2.1, ← hagree, hb2.2]
        rfl

/-! ## Prefix/suffix stability and reassembly for the remaining predicates -/

theorem all_imp {p q : Char → Bool} (hpq : ∀ c, p c = true → q c = true)
    {s : Str} (h : s.all p = true) : s.all q = true := by
  rw [List.all_eq_true] at h ⊢
  exact fun x hx => hpq x (h x hx)

theorem noDbl_append_left : ∀ {x : Str} (y : Str), noDbl (x ++ y) = true →
    noDbl x = true
  | [], _, _ => rfl
  | [_], _, _ => rfl
  | c :: d :: x', y, h => by
    rw [List.cons_append, List.cons_append] at h
    rw [noDbl, Bool.and_eq_true] at h ⊢
    exact ⟨h.1, noDbl_append_left y (by rw [List.cons_append]; exact h.2)⟩

theorem noWsHead_append_left {x : Str} (y : Str) (hx : x ≠ []) :
    noWsHead (x ++ y) = noWsHead x := by
  cases x with
  | nil => exact absurd rfl hx
  | cons c x' => rfl

theorem noSepSub_cons (c : Char) (rest : Str) :
    noSepSub (c :: rest) =
      (!(c = ' ' && rest.take 2 = ['-', ' ']) && noSepSub rest) := rfl

theorem noSepSub_append_right : ∀ {x y : Str}, noSepSub (x ++ y) = true →
    noSepSub y = true := by
  intro x
  induction x with
  | nil => exact fun h => h
  | cons c x' ih =>
    intro y h
    rw [List.cons_append, noSepSub_cons, Bool.and_eq_true] at h
    exact ih h.2

theorem take2_shape {x' : Str} (h : x'.take 2 = ['-', ' ']) :
    ∃ x'', x' = '-' :: ' ' :: x'' := by
  cases x' with
  | nil => simp at h
  | cons a x1 =>
    cases x1 with
    | nil =>
      have h2 : ([a] : Str) = ['-', ' '] := h
      simp at h2
    | cons b x2 =>
      refine ⟨x2, ?_⟩
      have h2 : ([a, b] : Str) = ['-', ' '] := h
      simp only [List.cons.injEq, and_true] at h2
      rw [h2.1, h2.2]

theorem noSepSub_append_left : ∀ {x : Str} (y : Str), noSepSub (x ++ y) = true →
    noSepSub x = true
  | [], _, _ => rfl
  | c :: x', y, h => by
    rw [List.cons_append, noSepSub_cons, Bool.and_eq_true] at h
    rw [noSepSub_cons, Bool.and_eq_true]
    refine ⟨?_, noSepSub_append_left y h.2⟩
    apply bool_not_of_ne_true
    intro hb
    rw [Bool.and_eq_true] at hb
    obtain ⟨x'', rfl⟩ := take2_shape (of_decide_eq_true hb.2)
    apply absurd h.1
    rw [hb.1]
    simp [List.take_cons]

theorem noSepSub_strip_spaces_pad : ∀ (y : Str) {w : Str},
    w.all (fun c => c = ' ') = true →
    noSepSub (y ++ (w ++ [' ', '-'])) = true → noSepSub (y ++ [' ', '-']) = true
  | [], _, _, _ => by decide
  | [d], _, _, _ => by
    rw [List.singleton_append, noSepSub_cons]
    cases hd : decide (d = ' ') <;> decide
  | c :: d :: y', w, hw, h => by
    rw [List.cons_append, noSepSub_cons, Bool.and_eq_true] at h
    rw [List.cons_append, noSepSub_cons, Bool.and_eq_true]
    refine ⟨?_, noSepSub_strip_spaces_pad (d :: y') hw h.2⟩
    have htk : ((d :: y') ++ [' ', '-']).take 2 =
        ((d :: y') ++ (w ++ [' ', '-'])).take 2 := by
      cases y' with
      | nil =>
        cases w with
        | nil => rfl
        | cons e w' =>
          have he : e = ' ' := by
            rw [List.all_cons, Bool.and_eq_true] at hw
            exact of_decide_eq_true hw.1
          rw [he]
          rfl
      | cons r y'' => rfl
    rw [htk]
    exact h.1

theorem pairClean_append_intro {o k : Char} : ∀ {x y : Str},
    pairClean o k x = true → pairClean o k y = true → (o ∈ x → k ∉ y) →
    pairClean o k (x ++ y) = true
  | [], y, _, hy, _ => hy
  | c :: x', y, hx, hy, hcross => by
    rw [pairClean_cons, Bool.and_eq_true] at hx
    rw [List.cons_append, pairClean_cons, Bool.and_eq_true]
    refine ⟨?_, pairClean_append_intro hx.2 hy
      (fun hm => hcross (List.mem_cons_of_mem c hm))⟩
    by_cases hc : c = o
    · rw [if_pos hc]
      have hky : k ∉ y := hcross (hc ▸ List.mem_cons_self c x')
      have hkx : k ∉ x' := by
        rw [if_pos hc] at hx
        intro hm
        have hck : x'.contains k = true := List.elem_iff.2 hm
        rw [hck] at hx
        exact absurd hx.1 (by decide)
      have : k ∉ x' ++ y := by
        rw [List.mem_append]
        rintro (h1 | h2)
        · exact hkx h1
        · exact hky h2
      rw [contains_false_of_not_mem this]
      rfl
    · rw [if_neg hc]

theorem pairClean_append_not_both {o k : Char} : ∀ {x y : Str},
    pairClean o k (x ++ y) = true → o ∈ x → k ∈ y → False
  | [], _, _, ho, _ => by simp at ho
  | c :: x', y, h, ho, hk => by
    rw [List.cons_append, pairClean_cons, Bool.and_eq_true] at h
    rcases List.mem_cons.1 ho with heq | hm
    · rw [if_pos heq.symm] at h
      have hmem : k ∈ x' ++ y := List.mem_append.2 (Or.inr hk)
      have hck : (x' ++ y).contains k = true := List.elem_iff.2 hmem
      rw [hck] at h
      exact absurd h.1 (by decide)
    · exact pairClean_append_not_both h.2 hm hk

/-! ## `splitLastDot`, `splitext` and `dotsLeading` -/

theorem splitLastDot_none_of_dotFree : ∀ {s : Str},
    s.all (fun c => c ≠ '.') = true → splitLastDot s = none
  | [], _ => rfl
  | c :: rest, h => by
    rw [List.all_cons, Bool.and_eq_true] at h
    rw [splitLastDot, splitLastDot_none_of_dotFree h.2]
    rw [if_neg (of_decide_eq_true h.1)]

theorem dotFree_of_splitLastDot_none : ∀ {s : Str}, splitLastDot s = none →
    s.all (fun c => c ≠ '.') = true
  | [], _ => rfl
  | c :: rest, h => by
    rw [splitLastDot] at h
    rcases hrest : splitLastDot rest with _ | ⟨pre, post⟩
    · rw [hrest] at h
      by_cases hc : c = '.'
      · rw [if_pos hc] at h
        exact absurd h (by simp)
      · rw [List.all_cons, Bool.and_eq_true]
        exact ⟨by simp [hc], dotFree_of_splitLastDot_none hrest⟩
    · rw [hrest] at h
      exact absurd h (by simp)

theorem splitLastDot_append {r : Str} (hr : r.all (fun c => c ≠ '.') = true) :
    ∀ (x : Str), splitLastDot (x ++ '.' :: r) = some (x, r)
  | [] => by
    rw [List.nil_append, splitLastDot, splitLastDot_none_of_dotFree hr, if_pos rfl]
  | c :: x' => by
    rw [List.cons_append, splitLastDot, splitLastDot_append hr x']

theorem splitLastDot_some : ∀ {s pre post : Str},
    splitLastDot s = some (pre, post) →
    s = pre ++ '.' :: post ∧ post.all (fun c => c ≠ '.') = true := by
  intro s
  induction s with
  | nil => intro pre post h; exact absurd h (by simp [splitLastDot])
  | cons c rest ih =>
    intro pre post h
    rw [splitLastDot] at h
    rcases hrest : splitLastDot rest with _ | ⟨pre', post'⟩
    · rw [hrest] at h
      by_cases hc : c = '.'
      · rw [if_pos hc] at h
        simp only [Option.some.injEq, Prod.mk.injEq] at h
        obtain ⟨h1, h2⟩ := h
        subst h1 h2 hc
        exact ⟨rfl, dotFree_of_splitLastDot_none hrest⟩
      · rw [if_neg hc] at h
        exact absurd h (by simp)
    · rw [hrest] at h
      simp only [Option.some.injEq, Prod.mk.injEq] at h
      obtain ⟨h1, h2⟩ := h
      obtain ⟨hs, hdf⟩ := ih hrest
      subst h2
      rw [← h1, List.cons_append, ← hs]
      exact ⟨rfl, hdf⟩

theorem afterLastSep_eq_self {s : Str} (h : s.all (fun c => !isSepChar c) = true) :
    afterLastSep s = s := by
  rw [afterLastSep]
  have hrev : s.reverse.all (fun c => !isSepChar c) = true := by
    rw [List.all_eq_true] at h ⊢
    intro x hx
    exact h x (List.mem_reverse.1 hx)
  rw [List.takeWhile_eq_self_iff.2 (List.all_eq_true.1 hrev), List.reverse_reverse]

theorem any_eq_false_of_all_not {p : Char → Bool} {s : Str}
    (h : s.all (fun c => !p c) = true) : s.any p = false := by
  rw [← Bool.not_eq_true]
  intro ha
  rw [List.any_eq_true] at ha
  obtain ⟨x, hx, hpx⟩ := ha
  have := List.all_eq_true.1 h x hx
  rw [hpx] at this
  exact absurd this (by decide)

theorem all_not_of_any_eq_false {p : Char → Bool} {s : Str}
    (h : s.any p = false) : s.all (fun c => !p c) = true := by
  rw [List.all_eq_true]
  intro x hx
  by_cases hpx : p x = true
  · have : s.any p = true := List.any_eq_true.2 ⟨x, hx, hpx⟩
    rw [this] at h
    exact absurd h (by decide)
  · simp [hpx]

theorem splitext_eq_none {p : Str} (h : splitLastDot p = none) :
    splitext p = (p, []) := by
  rw [splitext, h]

theorem splitext_eq_some {p pre post : Str} (h : splitLastDot p = some (pre, post)) :
    splitext p =
      if post.any isSepChar = true then (p, [])
      else if (afterLastSep pre).any (fun c => c ≠ '.') = true then (pre, '.' :: post)
      else (p, []) := by
  rw [splitext, h]

theorem splitext_append_ext {x r : Str}
    (hxsep : x.all (fun c => !isSepChar c) = true)
    (hxdot : x.any (fun c => c ≠ '.') = true)
    (hrdot : r.all (fun c => c ≠ '.') = true)
    (hrsep : r.all (fun c => !isSepChar c) = true) :
    splitext (x ++ '.' :: r) = (x, '.' :: r) := by
  rw [splitext_eq_some (splitLastDot_append hrdot x)]
  rw [if_neg (by rw [any_eq_false_of_all_not hrsep]; decide)]
  rw [afterLastSep_eq_self hxsep, if_pos hxdot]

theorem dotsLeading_append_dot : ∀ {x : Str} (z : Str),
    dotsLeading (x ++ '.' :: z) = true → x.all (fun c => c = '.') = true
  | [], _, _ => rfl
  | c :: x', z, h => by
    by_cases hc : c = '.'
    · rw [List.all_cons, Bool.and_eq_true]
      refine ⟨decide_eq_true hc, dotsLeading_append_dot z ?_⟩
      rw [dotsLeading, List.cons_append, List.dropWhile_cons,
        if_pos (decide_eq_true hc)] at h
      exact h
    · rw [dotsLeading, List.cons_append, List.dropWhile_cons,
        if_neg (fun hd => hc (of_decide_eq_true hd))] at h
      rw [List.all_eq_true] at h
      have hm : '.' ∈ c :: (x' ++ '.' :: z) :=
        List.mem_cons_of_mem c (List.mem_append.2 (Or.inr (List.mem_cons_self '.' z)))
      have := h '.' hm
      exact absurd this (by decide)

theorem splitext_no_ext {f : Str} (hsep : f.all (fun c => !isSepChar c) = true)
    (hdl : dotsLeading f = true) : splitext f = (f, []) := by
  rcases hsld : splitLastDot f with _ | ⟨pre, post⟩
  · exact splitext_eq_none hsld
  · obtain ⟨hf, _⟩ := splitLastDot_some hsld
    rw [splitext_eq_some hsld]
    have hpresep : pre.all (fun c => !isSepChar c) = true := by
      rw [hf, List.all_append, Bool.and_eq_true] at hsep
      exact hsep.1
    have hpredots : pre.all (fun c => c = '.') = true := by
      rw [hf] at hdl
      exact dotsLeading_append_dot post hdl
    have hnotany : (afterLastSep pre).any (fun c => c ≠ '.') = false := by
      rw [afterLastSep_eq_self hpresep]
      apply any_eq_false_of_all_not
      rw [List.all_eq_true] at hpredots ⊢
      intro c hc
      have := of_decide_eq_true (hpredots c hc)
      simp [this]
    by_cases hpost : post.any isSepChar = true
    · rw [if_pos hpost]
    · rw [if_neg hpost, hnotany, if_neg (by decide)]

theorem splitext_snd_shape (fn : Str) :
    (splitext fn).2 = [] ∨
    ∃ r, (splitext fn).2 = '.' :: r ∧ r.all (fun c => c ≠ '.') = true ∧
      r.all (fun c => !isSepChar c) = true := by
  rcases hsld : splitLastDot fn with _ | ⟨pre, post⟩
  · left
    rw [splitext_eq_none hsld]
  · rw [splitext_eq_some hsld]
    by_cases hps : post.any isSepChar = true
    · left
      rw [if_pos hps]
    · rw [if_neg hps]
      by_cases hpa : (afterLastSep pre).any (fun c => c ≠ '.') = true
      · right
        refine ⟨post, ?_, (splitLastDot_some hsld).2, ?_⟩
        · rw [if_pos hpa]
        · exact all_not_of_any_eq_false (Bool.eq_false_iff.2 hps)
      · left
        rw [if_neg hpa]

/-! ## Transport helpers for the parse master lemma -/

theorem caseLike_pred_eq {p : Char → Bool}
    (hcased : ∀ c, isCasedChar c = true → p c = true) :
    ∀ c e, CaseLike c e → p e = p c := by
  intro c e h
  rcases h with rfl | ⟨hc, he⟩
  · rfl
  · rw [hcased c hc, hcased e he]

theorem toSpace_eq_special {x : Char} (hx : isSpaceChar x = false) (c : Char) :
    toSpace c = x ↔ c = x := by
  rw [toSpace]
  by_cases hc : isSpaceChar c = true
  · rw [if_pos hc]
    constructor
    · intro h
      rw [← h] at hx
      exact absurd hx (by decide)
    · intro h
      rw [h] at hc
      rw [hc] at hx
      exact absurd hx (by simp)
  · rw [if_neg hc]

theorem all_map_toSpace {p : Char → Bool} (hsp : p ' ' = true) {s : Str}
    (h : s.all p = true) : (s.map toSpace).all p = true := by
  rw [List.all_eq_true] at h ⊢
  intro x hx
  rw [List.mem_map] at hx
  obtain ⟨c, hc, rfl⟩ := hx
  rw [toSpace]
  by_cases hsc : isSpaceChar c = true
  · rw [if_pos hsc]
    exact hsp
  · rw [if_neg hsc]
    exact h c hc

theorem all_filter_self (p : Char → Bool) (s : Str) : (s.filter p).all p = true := by
  rw [List.all_eq_true]
  intro x hx
  exact (List.mem_filter.1 hx).2

theorem mem_map_toSpace {k : Char} (hk : isSpaceChar k = false) (s : Str) :
    k ∈ s.map toSpace ↔ k ∈ s := by
  rw [List.mem_map]
  constructor
  · rintro ⟨c, hc, he⟩
    rw [(toSpace_eq_special hk c).1 he] at hc
    exact hc
  · intro hm
    exact ⟨k, hm, (toSpace_eq_special hk k).2 rfl⟩

theorem contains_map_toSpace {k : Char} (hk : isSpaceChar k = false) (s : Str) :
    (s.map toSpace).contains k = s.contains k := by
  by_cases hm : k ∈ s
  · have e1 : s.contains k = true := List.elem_iff.2 hm
    have e2 : (s.map toSpace).contains k = true :=
      List.elem_iff.2 ((mem_map_toSpace hk s).2 hm)
    rw [e1, e2]
  · have hm2 : k ∉ s.map toSpace := fun h2 => hm ((mem_map_toSpace hk s).1 h2)
    rw [contains_false_of_not_mem hm, contains_false_of_not_mem hm2]

theorem pairClean_map_toSpace {o k : Char} (ho : isSpaceChar o = false)
    (hk : isSpaceChar k = false) : ∀ (s : Str),
    pairClean o k (s.map toSpace) = pairClean o k s
  | [] => rfl
  | c :: rest => by
    rw [List.map_cons, pairClean_cons, pairClean_cons,
      pairClean_map_toSpace ho hk rest]
    congr 1
    by_cases hc : c = o
    · rw [if_pos hc, if_pos ((toSpace_eq_special ho c).2 hc),
        contains_map_toSpace hk rest]
    · rw [if_neg hc, if_neg (fun h2 => hc ((toSpace_eq_special ho c).1 h2))]

theorem stripL_isSuffix (s : Str) : List.IsSuffix (stripL s) s :=
  List.dropWhile_suffix isSpaceChar

theorem noDbl_pyStrip {s : Str} (h : noDbl s = true) : noDbl (pyStrip s) = true := by
  have h1 : noDbl (stripL s) = true := by
    obtain ⟨u, hu⟩ := stripL_isSuffix s
    exact noDbl_append_right (x := u) (by rw [hu]; exact h)
  obtain ⟨u', hu'⟩ := stripR_isPrefix (stripL s)
  exact noDbl_append_left u' (by rw [pyStrip, hu']; exact h1)

theorem stripR_decomp (s : Str) :
    s = stripR s ++ (s.reverse.takeWhile isSpaceChar).reverse ∧
    (s.reverse.takeWhile isSpaceChar).reverse.all isSpaceChar = true := by
  constructor
  · conv_lhs => rw [← List.reverse_reverse s,
      ← List.takeWhile_append_dropWhile (p := isSpaceChar) (l := s.reverse)]
    rw [List.reverse_append]
    rfl
  · rw [List.all_eq_true]
    intro x hx
    rw [List.mem_reverse] at hx
    exact List.mem_takeWhile_imp hx

theorem stripR_ne_nil {s : Str} {c : Char} (hm : c ∈ s)
    (hc : isSpaceChar c = false) : stripR s ≠ [] := by
  intro h0
  rw [stripR] at h0
  have h1 : stripL s.reverse = [] := by
    rw [← List.reverse_reverse (stripL s.reverse), h0, List.reverse_nil]
  rw [stripL, List.dropWhile_eq_nil_iff] at h1
  have := h1 c (List.mem_reverse.2 hm)
  rw [this] at hc
  exact absurd hc (by simp)

/-! ## Shape of the cleaned stem -/

theorem underscoreToSpace_no_underscore (s : Str) :
    (underscoreToSpace s).all (fun c => c ≠ '_') = true := by
  rw [List.all_eq_true]
  intro x hx
  rw [underscoreToSpace, List.mem_map] at hx
  obtain ⟨c, _, rfl⟩ := hx
  by_cases hc : c = '_'
  · rw [if_pos hc]
    decide
  · rw [if_neg hc]
    exact decide_eq_true hc

theorem cleanedStem_good (fn : Str) :
    (cleanedStem fn).all (fun c => c ≠ '_') = true ∧
    (cleanedStem fn).all (fun c => !isEmojiChar c) = true ∧
    pairClean '(' ')' (cleanedStem fn) = true ∧
    pairClean '[' ']' (cleanedStem fn) = true ∧
    (cleanedStem fn).all (fun c => !isSpaceChar c || c = ' ') = true ∧
    noDbl (cleanedStem fn) = true ∧
    strippedStr (cleanedStem fn) = true := by
  unfold cleanedStem clean_filename_extras collapseWS removeParens removeBrackets
  set s0 := remove_emojis (pyStrip (underscoreToSpace (splitext fn).1)) with hs0
  set s1 := removePairGo '(' ')' false s0 with hs1
  set s2 := removePairGo '[' ']' false s1 with hs2
  have h0u : s0.all (fun c => c ≠ '_') = true := by
    rw [hs0]
    exact all_of_sublist (List.filter_sublist _)
      (all_of_sublist (pyStrip_sublist _) (underscoreToSpace_no_underscore _))
  have h0e : s0.all (fun c => !isEmojiChar c) = true := by
    rw [hs0]
    exact all_filter_self _ _
  have chain : ∀ (p : Char → Bool), p ' ' = true → s0.all p = true →
      (pyStrip (squeezeSpaces (s2.map toSpace))).all p = true := by
    intro p hsp h
    exact all_of_sublist (pyStrip_sublist _)
      (all_of_sublist (squeezeSpaces_sublist _)
        (all_map_toSpace hsp
          (all_of_sublist (removePairGo_sublist '[' ']' false _)
            (all_of_sublist (removePairGo_sublist '(' ')' false _) h))))
  refine ⟨chain _ (by decide) h0u, chain _ (by decide) h0e, ?_, ?_, ?_, ?_,
    strippedStr_pyStrip _⟩
  · apply pairClean_of_sublist (pyStrip_sublist _)
    apply pairClean_of_sublist (squeezeSpaces_sublist _)
    rw [pairClean_map_toSpace (by decide) (by decide) s2]
    exact pairClean_of_sublist (removePairGo_sublist '[' ']' false _)
      (pairClean_removePairGo '(' ')' false s0)
  · apply pairClean_of_sublist (pyStrip_sublist _)
    apply pairClean_of_sublist (squeezeSpaces_sublist _)
    rw [pairClean_map_toSpace (by decide) (by decide) s2]
    exact pairClean_removePairGo '[' ']' false s1
  · exact all_of_sublist (pyStrip_sublist _) (wsOnly_collapse s2)
  · exact noDbl_pyStrip (noDbl_squeeze (s2.map toSpace))

/-! ## Parsed parts enjoy the textual invariants -/

theorem forall₂_caseLike_pad {s t : Str} (h : List.Forall₂ CaseLike s t) :
    List.Forall₂ CaseLike (s ++ [' ', '-']) (t ++ [' ', '-']) := by
  induction h with
  | nil =>
    exact List.Forall₂.cons (caseLike_refl ' ')
      (List.Forall₂.cons (caseLike_refl '-') List.Forall₂.nil)
  | cons hce _ ih => exact List.Forall₂.cons hce ih

theorem goodPart_of_caseLike {s t : Str} (F : List.Forall₂ CaseLike s t)
    (h1 : s.all (fun c => c ≠ '_') = true)
    (h2 : s.all (fun c => !isEmojiChar c) = true)
    (h3 : pairClean '(' ')' s = true) (h4 : pairClean '[' ']' s = true)
    (h5 : s.all (fun c => !isSpaceChar c || c = ' ') = true)
    (h6 : noDbl s = true) (h7 : strippedStr s = true) : GoodPart t := by
  refine ⟨?_, ?_, ?_, ?_, ?_, ?_, ?_⟩
  · rw [forall₂_all_congr
      (caseLike_pred_eq (fun c hc => decide_eq_true (cased_ne hc (by decide)))) F]
    exact h1
  · rw [forall₂_all_congr
      (caseLike_pred_eq (fun c hc => by rw [cased_not_emoji hc]; rfl)) F]
    exact h2
  · rw [forall₂_pairClean (by decide) (by decide) F]
    exact h3
  · rw [forall₂_pairClean (by decide) (by decide) F]
    exact h4
  · rw [forall₂_all_congr
      (caseLike_pred_eq (fun c hc => by rw [cased_not_space hc]; rfl)) F]
    exact h5
  · rw [forall₂_noDbl F]
    exact h6
  · rw [forall₂_strippedStr F]
    exact h7

theorem parse_eq_some {fn a t : Str} (h : splitOnceSep (cleanedStem fn) = some (a, t)) :
    revamped_parse_filename fn =
      ⟨pyTitle (pyStrip a), pyTitle (pyStrip t), (splitext fn).2⟩ := by
  simp only [revamped_parse_filename]
  rw [h]

theorem parse_eq_none {fn : Str} (h : splitOnceSep (cleanedStem fn) = none) :
    revamped_parse_filename fn =
      ⟨"Unknown Artist".toList, pyTitle (cleanedStem fn), (splitext fn).2⟩ := by
  simp only [revamped_parse_filename]
  rw [h]

theorem parse_good (fn : Str) :
    GoodPart (revamped_parse_filename fn).artist ∧
    GoodPart (revamped_parse_filename fn).title ∧
    (revamped_parse_filename fn).artist ≠ [] ∧
    noSepSub ((revamped_parse_filename fn).artist ++ [' ', '-']) = true ∧
    pyTitle (revamped_parse_filename fn).artist = (revamped_parse_filename fn).artist ∧
    pyTitle (revamped_parse_filename fn).title = (revamped_parse_filename fn).title ∧
    ('(' ∈ (revamped_parse_filename fn).artist →
      ')' ∉ (revamped_parse_filename fn).title) ∧
    ('[' ∈ (revamped_parse_filename fn).artist →
      ']' ∉ (revamped_parse_filename fn).title) := by
  obtain ⟨hU, hE, hP, hB, hW, hD, hS⟩ := cleanedStem_good fn
  rcases hsp : splitOnceSep (cleanedStem fn) with _ | ⟨a, t⟩
  · rw [parse_eq_none hsp]
    dsimp only
    refine ⟨⟨by decide, by decide, by decide, by decide, by decide, by decide,
        by decide⟩,
      goodPart_of_caseLike (pyTitleGo_forall₂ false _) hU hE hP hB hW hD hS,
      by decide, by decide, by decide, pyTitle_idem _,
      fun h => absurd h (by decide), fun h => absurd h (by decide)⟩
  · obtain ⟨hc_eq, hpad⟩ := splitOnceSep_some hsp
    rw [parse_eq_some hsp]
    dsimp only
    rw [hc_eq] at hU hE hP hB hW hD hS
    have ha_ne : a ≠ [] := by
      intro h0
      rw [h0, List.nil_append, strippedStr, Bool.and_eq_true] at hS
      have hf : noWsHead (' ' :: '-' :: ' ' :: t) = false := rfl
      rw [hf] at hS
      exact absurd hS.1 (by decide)
    have hnwa : noWsHead a = true := by
      rw [strippedStr, Bool.and_eq_true] at hS
      have := hS.1
      rw [noWsHead_append_left _ ha_ne] at this
      exact this
    obtain ⟨a0, a', rfl⟩ : ∃ a0 a', a = a0 :: a' := by
      cases a with
      | nil => exact absurd rfl ha_ne
      | cons a0 a' => exact ⟨a0, a', rfl⟩
    have hhead : isSpaceChar a0 = false := by
      have h := hnwa
      rw [show noWsHead (a0 :: a') = !isSpaceChar a0 from rfl] at h
      cases hh : isSpaceChar a0
      · rfl
      · rw [hh] at h
        exact absurd h (by decide)
    have hstripL : stripL (a0 :: a') = a0 :: a' := stripL_eq_self hnwa
    have ha_sub : List.Sublist (a0 :: a') ((a0 :: a') ++ ' ' :: '-' :: ' ' :: t) :=
      List.sublist_append_left _ _
    have hx_sub : List.Sublist (pyStrip (a0 :: a')) ((a0 :: a') ++ ' ' :: '-' :: ' ' :: t) :=
      (pyStrip_sublist _).trans ha_sub
    have hc_eq2 : (a0 :: a') ++ ' ' :: '-' :: ' ' :: t =
        ((a0 :: a') ++ [' ', '-', ' ']) ++ t := by
      rw [List.append_assoc]
      rfl
    have ht_sub : List.Sublist t ((a0 :: a') ++ ' ' :: '-' :: ' ' :: t) := by
      rw [hc_eq2]
      exact List.sublist_append_right _ t
    have hy_sub : List.Sublist (pyStrip t) ((a0 :: a') ++ ' ' :: '-' :: ' ' :: t) :=
      (pyStrip_sublist _).trans ht_sub
    have hDa : noDbl (pyStrip (a0 :: a')) = true :=
      noDbl_pyStrip (noDbl_append_left _ hD)
    have hDt : noDbl (pyStrip t) = true := by
      apply noDbl_pyStrip
      apply noDbl_append_right (x := (a0 :: a') ++ [' ', '-', ' '])
      rw [← hc_eq2]
      exact hD
    have hx_ne : pyStrip (a0 :: a') ≠ [] := by
      rw [pyStrip, hstripL]
      exact stripR_ne_nil (List.mem_cons_self a0 a') hhead
    have hx_pad : noSepSub (pyStrip (a0 :: a') ++ [' ', '-']) = true := by
      rw [pyStrip, hstripL]
      obtain ⟨hdecomp, hwsp⟩ := stripR_decomp (a0 :: a')
      have hsubw : List.Sublist ((a0 :: a').reverse.takeWhile isSpaceChar).reverse
          (a0 :: a') := by
        conv_rhs => rw [hdecomp]
        exact List.sublist_append_right _ _
      have hWw : (((a0 :: a').reverse.takeWhile isSpaceChar).reverse).all
          (fun c => !isSpaceChar c || c = ' ') = true :=
        all_of_sublist (hsubw.trans ha_sub) hW
      have hw_sp : (((a0 :: a').reverse.takeWhile isSpaceChar).reverse).all
          (fun c => c = ' ') = true := by
        rw [List.all_eq_true] at hwsp hWw ⊢
        intro x hx
        have l1 := hwsp x hx
        have l2 := hWw x hx
        rw [l1] at l2
        simpa using l2
      have hglob : noSepSub ((stripR (a0 :: a') ++
          ((a0 :: a').reverse.takeWhile isSpaceChar).reverse) ++ [' ', '-']) = true := by
        rw [← hdecomp]
        exact hpad
      rw [List.append_assoc] at hglob
      exact noSepSub_strip_spaces_pad (stripR (a0 :: a')) hw_sp hglob
    refine ⟨?_, ?_, ?_, ?_, pyTitle_idem _, pyTitle_idem _, ?_, ?_⟩
    · exact goodPart_of_caseLike (pyTitleGo_forall₂ false _)
        (all_of_sublist hx_sub hU) (all_of_sublist hx_sub hE)
        (pairClean_of_sublist hx_sub hP) (pairClean_of_sublist hx_sub hB)
        (all_of_sublist hx_sub hW) hDa (strippedStr_pyStrip _)
    · exact goodPart_of_caseLike (pyTitleGo_forall₂ false _)
        (all_of_sublist hy_sub hU) (all_of_sublist hy_sub hE)
        (pairClean_of_sublist hy_sub hP) (pairClean_of_sublist hy_sub hB)
        (all_of_sublist hy_sub hW) hDt (strippedStr_pyStrip _)
    · intro h0
      apply hx_ne
      have hlen := pyTitleGo_length false (pyStrip (a0 :: a'))
      rw [show pyTitle (pyStrip (a0 :: a')) = pyTitleGo false (pyStrip (a0 :: a'))
        from rfl] at h0
      rw [h0] at hlen
      exact List.length_eq_zero.1 hlen.symm
    · rw [show pyTitle (pyStrip (a0 :: a')) = pyTitleGo false (pyStrip (a0 :: a'))
        from rfl,
        forall₂_noSepSub (forall₂_caseLike_pad
          (pyTitleGo_forall₂ false (pyStrip (a0 :: a'))))]
      exact hx_pad
    · intro h1 h2
      have h1x : '(' ∈ pyStrip (a0 :: a') :=
        (forall₂_mem_special (pyTitleGo_forall₂ false _) (by decide)).1 h1
      have h1a : '(' ∈ a0 :: a' := (pyStrip_sublist _).subset h1x
      have h2x : ')' ∈ pyStrip t :=
        (forall₂_mem_special (pyTitleGo_forall₂ false _) (by decide)).1 h2
      have h2t : ')' ∈ t := (pyStrip_sublist _).subset h2x
      exact pairClean_append_not_both hP h1a
        (List.mem_cons_of_mem ' ' (List.mem_cons_of_mem '-'
          (List.mem_cons_of_mem ' ' h2t)))
    · intro h1 h2
      have h1x : '[' ∈ pyStrip (a0 :: a') :=
        (forall₂_mem_special (pyTitleGo_forall₂ false _) (by decide)).1 h1
      have h1a : '[' ∈ a0 :: a' := (pyStrip_sublist _).subset h1x
      have h2x : ']' ∈ pyStrip t :=
        (forall₂_mem_special (pyTitleGo_forall₂ false _) (by decide)).1 h2
      have h2t : ']' ∈ t := (pyStrip_sublist _).subset h2x
      exact pairClean_append_not_both hB h1a
        (List.mem_cons_of_mem ' ' (List.mem_cons_of_mem '-'
          (List.mem_cons_of_mem ' ' h2t)))

/-! ## Reassembled root facts -/

theorem parse_ext (fn : Str) : (revamped_parse_filename fn).ext = (splitext fn).2 := by
  rcases hsp : splitOnceSep (cleanedStem fn) with _ | ⟨a, t⟩
  · rw [parse_eq_none hsp]
  · rw [parse_eq_some hsp]

theorem unsafe_of_sep {c : Char} (h : isSepChar c = true) : isUnsafeChar c = true := by
  rw [isSepChar, Bool.or_eq_true] at h
  rcases h with h | h
  · rw [of_decide_eq_true h]
    decide
  · rw [of_decide_eq_true h]
    decide

theorem not_sep_of_not_unsafe {c : Char} (h : (!isUnsafeChar c) = true) :
    (!isSepChar c) = true := by
  apply bool_not_of_ne_true
  intro hs
  have := unsafe_of_sep hs
  rw [this] at h
  exact absurd h (by decide)

theorem all_root {p : ParsedName} {q : Char → Bool} (h1 : p.artist.all q = true)
    (h2 : p.title.all q = true) (hsp : q ' ' = true) (hdash : q '-' = true) :
    (assembleRoot p).all q = true := by
  rw [assembleRoot, List.all_append, Bool.and_eq_true]
  refine ⟨h1, ?_⟩
  simp [List.all_cons, hsp, hdash, h2]

theorem pairClean_sep_cons {o k : Char} (ho1 : ¬(' ' = o)) (ho2 : ¬('-' = o))
    (z : Str) : pairClean o k (' ' :: '-' :: ' ' :: z) = pairClean o k z := by
  rw [pairClean_cons, pairClean_cons, pairClean_cons,
    if_neg ho1, if_neg ho2, if_neg ho1]
  simp

theorem mem_sep_title {k : Char} {z : Str} (hk1 : ¬(k = ' ')) (hk2 : ¬(k = '-'))
    (h : k ∈ ' ' :: '-' :: ' ' :: z) : k ∈ z := by
  rcases List.mem_cons.1 h with h1 | h
  · exact absurd h1 hk1
  rcases List.mem_cons.1 h with h1 | h
  · exact absurd h1 hk2
  rcases List.mem_cons.1 h with h1 | h
  · exact absurd h1 hk1
  exact h

theorem noDbl_sep_title {z : Str} (hz : noDbl z = true) (hh : noWsHead z = true) :
    noDbl (' ' :: '-' :: ' ' :: z) = true := by
  have n1 : noDbl (' ' :: z) = true := by
    apply noDbl_cons_intro hz
    intro d hd
    rintro ⟨-, h2⟩
    have := (noWsHead_iff z).1 hh d hd
    rw [h2] at this
    exact absurd this (by decide)
  have n2 : noDbl ('-' :: ' ' :: z) = true := by
    apply noDbl_cons_intro n1
    intro d _
    rintro ⟨h1, -⟩
    exact absurd h1 (by decide)
  apply noDbl_cons_intro n2
  intro d hd
  rintro ⟨-, h2⟩
  rw [List.head?_cons, Option.some.injEq] at hd
  rw [h2] at hd
  exact absurd hd (by decide)

theorem strippedStr_root {p : ParsedName} (hane : p.artist ≠ [])
    (ht : p.title ≠ []) (hsa : strippedStr p.artist = true)
    (hst : strippedStr p.title = true) : strippedStr (assembleRoot p) = true := by
  rw [strippedStr, Bool.and_eq_true] at hsa hst
  rw [strippedStr, Bool.and_eq_true]
  constructor
  · rw [assembleRoot, noWsHead_append_left _ hane]
    exact hsa.1
  · rw [assembleRoot, List.reverse_append]
    have hrev : (' ' :: '-' :: ' ' :: p.title).reverse =
        p.title.reverse ++ [' ', '-', ' '] := by
      simp
    rw [hrev, List.append_assoc,
      noWsHead_append_left _ (fun h0 => ht (by
        rw [← List.reverse_reverse p.title, h0, List.reverse_nil]))]
    exact hst.2

/-- C5 counterexample: for the filename "A: B - C.mp3" the tidy formatter
removes the unsafe character ':', so re-parsing the generated filename yields
artist "A B" instead of the originally parsed "A: B" — the
parse/format/parse round trip is not the identity in general. -/
theorem parse_format_roundtrip_counterexample :
    (revamped_parse_filename (generate_tidy_filename
        (revamped_parse_filename "A: B - C.mp3".toList))).artist ≠
      (revamped_parse_filename "A: B - C.mp3".toList).artist := by
  decide

/-- C5 (amended): parsing a filename and formatting the result with
`generate_tidy_filename` is idempotent on artist and title provided the parsed
title is nonempty, neither part contains a character of the removed class
`[\\/*?:"<>|]`, and — when the extension is empty — the reassembled
"artist - title" stem has dots only as a leading run. -/
theorem parse_format_roundtrip (fn : Str)
    (ht : (revamped_parse_filename fn).title ≠ [])
    (hA : (revamped_parse_filename fn).artist.all (fun c => !isUnsafeChar c) = true)
    (hT : (revamped_parse_filename fn).title.all (fun c => !isUnsafeChar c) = true)
    (hD : (revamped_parse_filename fn).ext = [] →
      dotsLeading (assembleRoot (revamped_parse_filename fn)) = true) :
    (revamped_parse_filename (generate_tidy_filename
        (revamped_parse_filename fn))).artist = (revamped_parse_filename fn).artist ∧
    (revamped_parse_filename (generate_tidy_filename
        (revamped_parse_filename fn))).title = (revamped_parse_filename fn).title := by
  obtain ⟨gA, gT, hane, hpad, htiA, htiT, hx1, hx2⟩ := parse_good fn
  obtain ⟨gA1, gA2, gA3, gA4, gA5, gA6, gA7⟩ := gA
  obtain ⟨gT1, gT2, gT3, gT4, gT5, gT6, gT7⟩ := gT
  set p := revamped_parse_filename fn with hp
  have hsepf : (' ' :: '-' :: ' ' :: p.title).filter (fun c => !isUnsafeChar c) =
      ' ' :: '-' :: ' ' :: p.title := by
    rw [List.filter_cons, if_pos (by decide), List.filter_cons, if_pos (by decide),
      List.filter_cons, if_pos (by decide), filter_eq_self_of hT]
  have htidy : generate_tidy_filename p =
      assembleRoot p ++ p.ext.filter (fun c => !isUnsafeChar c) := by
    rw [generate_tidy_filename, List.filter_append, List.filter_append,
      filter_eq_self_of hA, hsepf, assembleRoot]
  have hrootSep : (assembleRoot p).all (fun c => !isSepChar c) = true :=
    all_root (all_imp (fun c h => not_sep_of_not_unsafe h) hA)
      (all_imp (fun c h => not_sep_of_not_unsafe h) hT) (by decide) (by decide)
  have hrootAny : (assembleRoot p).any (fun c => c ≠ '.') = true := by
    rw [List.any_eq_true]
    refine ⟨' ', ?_, by decide⟩
    rw [assembleRoot]
    exact List.mem_append.2 (Or.inr (List.mem_cons_self _ _))
  have hext := parse_ext fn
  rw [← hp] at hext
  have hsplit1 : (splitext (generate_tidy_filename p)).1 = assembleRoot p := by
    rcases splitext_snd_shape fn with h0 | ⟨r, hr, hrd, hrs⟩
    · have hext0 : p.ext = [] := by rw [hext, h0]
      rw [htidy, hext0, List.filter_nil, List.append_nil]
      rw [splitext_no_ext hrootSep (hD hext0)]
    · have hextr : p.ext = '.' :: r := by rw [hext, hr]
      rw [htidy, hextr, List.filter_cons, if_pos (by decide)]
      rw [splitext_append_ext hrootSep hrootAny
        (all_of_sublist (List.filter_sublist _) hrd)
        (all_of_sublist (List.filter_sublist _) hrs)]
  have hcst : cleanedStem (generate_tidy_filename p) = assembleRoot p := by
    rw [cleanedStem, hsplit1]
    have hu : underscoreToSpace (assembleRoot p) = assembleRoot p :=
      map_eq_self_of (by
        intro c hc
        have hne := List.all_eq_true.1 (all_root gA1 gT1 (by decide) (by decide)) c hc
        rw [if_neg (of_decide_eq_true hne)])
    have hstrip : pyStrip (assembleRoot p) = assembleRoot p :=
      pyStrip_eq_self (strippedStr_root hane ht gA7 gT7)
    have hemoji : remove_emojis (assembleRoot p) = assembleRoot p :=
      filter_eq_self_of (all_root gA2 gT2 (by decide) (by decide))
    rw [hu, hstrip, hemoji]
    have hpc : pairClean '(' ')' (assembleRoot p) = true := by
      rw [assembleRoot]
      exact pairClean_append_intro gA3
        (by rw [pairClean_sep_cons (by decide) (by decide)]; exact gT3)
        (fun ho hk => hx1 ho (mem_sep_title (by decide) (by decide) hk))
    have hbc : pairClean '[' ']' (assembleRoot p) = true := by
      rw [assembleRoot]
      exact pairClean_append_intro gA4
        (by rw [pairClean_sep_cons (by decide) (by decide)]; exact gT4)
        (fun ho hk => hx2 ho (mem_sep_title (by decide) (by decide) hk))
    have hdc : noDbl (assembleRoot p) = true := by
      rw [assembleRoot]
      refine noDbl_append_intro gA6 (noDbl_sep_title gT6 ?_) ?_
      · have h7 := gT7
        rw [strippedStr, Bool.and_eq_true] at h7
        exact h7.1
      · intro cx cy hcx hcy
        rintro ⟨h1, -⟩
        have hrev : noWsHead p.artist.reverse = true := by
          have h7 := gA7
          rw [strippedStr, Bool.and_eq_true] at h7
          exact h7.2
        have hns : isSpaceChar cx = false :=
          (noWsHead_iff _).1 hrev cx (by rw [List.head?_reverse]; exact hcx)
        rw [h1] at hns
        exact absurd hns (by decide)
    exact clean_filename_extras_eq_self hpc hbc
      (all_root gA5 gT5 (by decide) (by decide)) hdc
      (strippedStr_root hane ht gA7 gT7)
  have hspt : splitOnceSep (cleanedStem (generate_tidy_filename p)) =
      some (p.artist, p.title) := by
    rw [hcst, assembleRoot]
    exact splitOnceSep_append p.title hpad
  rw [parse_eq_some hspt]
  dsimp only
  constructor
  · rw [pyStrip_eq_self gA7, htiA]
  · rw [pyStrip_eq_self gT7, htiT]

/-- C5 witness: the amended round-trip theorem applies to the spec's own
example "Daft Punk - One More Time.mp3" and reproduces artist and title. -/
theorem parse_format_roundtrip_witness :
    (revamped_parse_filename "Daft Punk - One More Time.mp3".toList).title ≠ [] ∧
    (revamped_parse_filename "Daft Punk - One More Time.mp3".toList).artist.all
      (fun c => !isUnsafeChar c) = true ∧
    (revamped_parse_filename "Daft Punk - One More Time.mp3".toList).title.all
      (fun c => !isUnsafeChar c) = true ∧
    ((revamped_parse_filename "Daft Punk - One More Time.mp3".toList).ext = [] →
      dotsLeading (assembleRoot
        (revamped_parse_filename "Daft Punk - One More Time.mp3".toList)) = true) ∧
    ((revamped_parse_filename (generate_tidy_filename
        (revamped_parse_filename "Daft Punk - One More Time.mp3".toList))).artist =
      (revamped_parse_filename "Daft Punk - One More Time.mp3".toList).artist ∧
    (revamped_parse_filename (generate_tidy_filename
        (revamped_parse_filename "Daft Punk - One More Time.mp3".toList))).title =
      (revamped_parse_filename "Daft Punk - One More Time.mp3".toList).title) :=
  ⟨by decide, by decide, by decide, by decide,
    parse_format_roundtrip "Daft Punk - One More Time.mp3".toList
      (by decide) (by decide) (by decide) (by decide)⟩

/-- C6 counterexample: the parser does not strip the filesystem-unsafe
characters (only `generate_tidy_filename` does), so the parse of
"A: B - C.mp3" keeps the ':' in the artist and the spec's TrackIdentity
invariant fails at this input. -/
theorem track_identity_invariant_counterexample :
    specTrackIdentityInvariant "A: B - C.mp3".toList = false := by
  decide

/-- C6 (amended): every parsed TrackIdentity has a nonempty artist, emoji-free
artist and title, no complete parenthesized or bracketed group left in either
part, and the sentinel artist "Unknown Artist" whenever the cleaned stem has
no " - " separator.  (The title can be empty and the unsafe characters
`[\\/*?:"<>|]` are not stripped at parse time.) -/
theorem track_identity_invariant (fn : Str) :
    (revamped_parse_filename fn).artist ≠ [] ∧
    (revamped_parse_filename fn).artist.all (fun c => !isEmojiChar c) = true ∧
    (revamped_parse_filename fn).title.all (fun c => !isEmojiChar c) = true ∧
    pairClean '(' ')' (revamped_parse_filename fn).artist = true ∧
    pairClean '[' ']' (revamped_parse_filename fn).artist = true ∧
    pairClean '(' ')' (revamped_parse_filename fn).title = true ∧
    pairClean '[' ']' (revamped_parse_filename fn).title = true ∧
    (splitOnceSep (cleanedStem fn) = none →
      (revamped_parse_filename fn).artist = "Unknown Artist".toList) := by
  obtain ⟨gA, gT, hane, -, -, -, -, -⟩ := parse_good fn
  refine ⟨hane, gA.2.1, gT.2.1, gA.2.2.1, gA.2.2.2.1, gT.2.2.1, gT.2.2.2.1, ?_⟩
  intro h0
  rw [parse_eq_none h0]

/-- C6 witness: the amended invariant at the separator-free filename
"abc.mp3", where the sentinel branch is taken. -/
theorem track_identity_invariant_witness :
    (revamped_parse_filename "abc.mp3".toList).artist ≠ [] ∧
    (revamped_parse_filename "abc.mp3".toList).artist.all
      (fun c => !isEmojiChar c) = true ∧
    (revamped_parse_filename "abc.mp3".toList).title.all
      (fun c => !isEmojiChar c) = true ∧
    pairClean '(' ')' (revamped_parse_filename "abc.mp3".toList).artist = true ∧
    pairClean '[' ']' (revamped_parse_filename "abc.mp3".toList).artist = true ∧
    pairClean '(' ')' (revamped_parse_filename "abc.mp3".toList).title = true ∧
    pairClean '[' ']' (revamped_parse_filename "abc.mp3".toList).title = true ∧
    (splitOnceSep (cleanedStem "abc.mp3".toList) = none →
      (revamped_parse_filename "abc.mp3".toList).artist = "Unknown Artist".toList) :=
  track_identity_invariant "abc.mp3".toList
